import Mathlib

/-!
# gio-planet `form` package: a shallow embedding

The Go package binds textual UI inputs to typed values.  `Value` and `Input`
are Go interfaces whose implementations own arbitrary mutable state; here
every interface method is a function on an explicit world `σ`, and the
methods of `Field` and `Form` pass that world along.

Modelling conventions

* A Go `error` is an `Option String`: `none` is `nil`, `some m` is an error
  whose `Error()` text is `m`.
* `Value.To` returns the pair `(text, err)` exactly like the Go method, since
  `Form.Clear` uses the text even when `err` is not nil.
* Every interface call made by `Field`/`Form` code is recorded, in order, in
  a call log (`Sys.log`), tagged with the position of the field through which
  the call is made, its arguments and what it returned.  The log is
  instrumentation only: no embedded function ever reads it.
* Slice indexing `f.cache[ii]` is bounds-checked; an out-of-range index is a
  Go runtime panic, rendered as `none`.
* The world `σ` is disjoint from the `Form` value itself (interface
  implementations do not reach back into the form that drives them).
* Go strings are modelled by Lean strings (sequences of code points).
-/

namespace GioPlanet

/-! ## form/form.go -/

/-- Go `error`: `none` is nil, `some m` carries the `Error()` text. -/
abbrev GoError := Option String

/-- Interface `form.Value` over a world `σ`. -/
structure Value (σ : Type) where
  To : σ → (String × GoError) × σ
  From : String → σ → GoError × σ
  Clear : σ → σ

/-- Interface `form.Input` over a world `σ`. -/
structure Input (σ : Type) where
  Text : σ → String × σ
  SetText : String → σ → σ
  SetError : String → σ → σ
  ClearError : σ → σ

/-- Struct `form.Field`: binds a Value to an Input. -/
structure Field (σ : Type) where
  Value : Value σ
  Input : Input σ

/-- One recorded interface call: the field position it went through, the
arguments, and the returned values. -/
inductive Event where
  | text (i : Nat) (ret : String)
  | setText (i : Nat) (s : String)
  | setError (i : Nat) (msg : String)
  | clearError (i : Nat)
  | to (i : Nat) (ret : String × GoError)
  | from (i : Nat) (arg : String) (ret : GoError)
  | clear (i : Nat)
  deriving DecidableEq, Repr

/-- Field position a recorded call went through. -/
def Event.idx : Event → Nat
  | .text i _ => i
  | .setText i _ => i
  | .setError i _ => i
  | .clearError i => i
  | .to i _ => i
  | .from i _ _ => i
  | .clear i => i

/-- The world together with the chronological log of interface calls. -/
structure Sys (σ : Type) where
  world : σ
  log : List Event

/-- Call `Input.Text()` through field position `i`. -/
def callText {σ : Type} (i : Nat) (inp : Input σ) (s : Sys σ) : String × Sys σ :=
  let r := inp.Text s.world
  (r.1, ⟨r.2, s.log ++ [Event.text i r.1]⟩)

/-- Call `Input.SetText(t)` through field position `i`. -/
def callSetText {σ : Type} (i : Nat) (inp : Input σ) (t : String) (s : Sys σ) : Sys σ :=
  ⟨inp.SetText t s.world, s.log ++ [Event.setText i t]⟩

/-- Call `Input.SetError(m)` through field position `i`. -/
def callSetError {σ : Type} (i : Nat) (inp : Input σ) (m : String) (s : Sys σ) : Sys σ :=
  ⟨inp.SetError m s.world, s.log ++ [Event.setError i m]⟩

/-- Call `Input.ClearError()` through field position `i`. -/
def callClearError {σ : Type} (i : Nat) (inp : Input σ) (s : Sys σ) : Sys σ :=
  ⟨inp.ClearError s.world, s.log ++ [Event.clearError i]⟩

/-- Call `Value.To()` through field position `i`. -/
def callTo {σ : Type} (i : Nat) (v : Value σ) (s : Sys σ) : (String × GoError) × Sys σ :=
  let r := v.To s.world
  (r.1, ⟨r.2, s.log ++ [Event.to i r.1]⟩)

/-- Call `Value.From(t)` through field position `i`. -/
def callFrom {σ : Type} (i : Nat) (v : Value σ) (t : String) (s : Sys σ) : GoError × Sys σ :=
  let r := v.From t s.world
  (r.1, ⟨r.2, s.log ++ [Event.from i t r.1]⟩)

/-- Call `Value.Clear()` through field position `i`. -/
def callClear {σ : Type} (i : Nat) (v : Value σ) (s : Sys σ) : Sys σ :=
  ⟨v.Clear s.world, s.log ++ [Event.clear i]⟩

/-- Method `(*Field).Validate`: run the input text through the value and
report the outcome on the input.  `i` is the position under which the calls
are logged. -/
def Field.Validate {σ : Type} (i : Nat) (field : Field σ) (s : Sys σ) : Bool × Sys σ :=
  let r := callText i field.Input s
  let e := callFrom i field.Value r.1 r.2
  match e.1 with
  | some msg => (false, callSetError i field.Input msg e.2)
  | none => (true, callClearError i field.Input e.2)

/-- Struct `form.Form`: the fields and the cache of previously seen texts. -/
structure Form (σ : Type) where
  Fields : List (Field σ)
  cache : List String

/-- The loop of `(*Form).Load` over `f.Fields`, from position `ii`. -/
def Form.loadLoop {σ : Type} :
    List (Field σ) → Nat → List String → Sys σ → Option (List String × Sys σ)
  | [], _, cache, s => some (cache, s)
  | field :: rest, ii, cache, s =>
    let r := callTo ii field.Value s
    match r.1.2 with
    | some msg => Form.loadLoop rest (ii + 1) cache (callSetError ii field.Input msg r.2)
    | none =>
      let t := callText ii field.Input r.2
      if ii < cache.length then
        Form.loadLoop rest (ii + 1) (cache.set ii t.1)
          (callSetText ii field.Input r.1.1 (callClearError ii field.Input t.2))
      else none

/-- Method `(*Form).Load`: load values into inputs. -/
def Form.Load {σ : Type} (f : Form σ) (fields : List (Field σ)) (s : Sys σ) :
    Option (Form σ × Sys σ) :=
  let fs := if fields.length > 0 then fields else f.Fields
  let cache := List.replicate fields.length ""
  match Form.loadLoop fs 0 cache s with
  | some (cache1, s1) => some (⟨fs, cache1⟩, s1)
  | none => none

/-- The loop of `(*Form).Submit`, from position `ii` with running flag `ok`. -/
def Form.submitLoop {σ : Type} : List (Field σ) → Nat → Bool → Sys σ → Bool × Sys σ
  | [], _, ok, s => (ok, s)
  | field :: rest, ii, ok, s =>
    let r := field.Validate ii s
    Form.submitLoop rest (ii + 1) (if !r.1 then false else ok) r.2

/-- Method `(*Form).Submit`: batch validation; returns the flag, the form as
it stands after the call, and the new world. -/
def Form.Submit {σ : Type} (f : Form σ) (s : Sys σ) : Bool × Form σ × Sys σ :=
  let r := Form.submitLoop f.Fields 0 true s
  (r.1, f, r.2)

/-- The loop of `(*Form).Validate`, from position `ii`. -/
def Form.validateLoop {σ : Type} :
    List (Field σ) → Nat → List String → Sys σ → Option (List String × Sys σ)
  | [], _, cache, s => some (cache, s)
  | field :: rest, ii, cache, s =>
    let r := callText ii field.Input s
    match cache[ii]? with
    | none => none
    | some c =>
      if c != r.1 then
        Form.validateLoop rest (ii + 1) (cache.set ii r.1) (field.Validate ii r.2).2
      else
        Form.validateLoop rest (ii + 1) cache r.2

/-- Method `(*Form).Validate`: realtime validation of changed fields. -/
def Form.Validate {σ : Type} (f : Form σ) (s : Sys σ) : Option (Form σ × Sys σ) :=
  match Form.validateLoop f.Fields 0 f.cache s with
  | some (cache1, s1) => some (⟨f.Fields, cache1⟩, s1)
  | none => none

/-- The loop of `(*Form).Clear`, from position `ii`. -/
def Form.clearLoop {σ : Type} :
    List (Field σ) → Nat → List String → Sys σ → Option (List String × Sys σ)
  | [], _, cache, s => some (cache, s)
  | field :: rest, ii, cache, s =>
    let s1 := callClear ii field.Value s
    let r := callTo ii field.Value s1
    let s2 := callSetText ii field.Input r.1.1 (callClearError ii field.Input r.2)
    if ii < cache.length then
      Form.clearLoop rest (ii + 1) (cache.set ii r.1.1) s2
    else none

/-- Method `(*Form).Clear`. -/
def Form.Clear {σ : Type} (f : Form σ) (s : Sys σ) : Option (Form σ × Sys σ) :=
  match Form.clearLoop f.Fields 0 f.cache s with
  | some (cache1, s1) => some (⟨f.Fields, cache1⟩, s1)
  | none => none

/-! ## Shapes of call logs -/

/-- The log of a loop that handles the items `os` at positions `k, k+1, ...`,
where handling item `o` at position `i` logs `seg i o`. -/
def traceOf {α : Type} (seg : Nat → α → List Event) : Nat → List α → List Event
  | _, [] => []
  | k, o :: os => seg k o ++ traceOf seg (k + 1) os

/-- The call reporting a `From` result on the input: `SetError` with the
message on an error, `ClearError` otherwise. -/
def outcome (i : Nat) : GoError → Event
  | some msg => Event.setError i msg
  | none => Event.clearError i

/-- Calls of one `Field.Validate` at position `i` that read text `o.1` and
got `o.2` back from `From`. -/
def validateSeg (i : Nat) (o : String × GoError) : List Event :=
  [Event.text i o.1, Event.from i o.1 o.2, outcome i o.2]

/-- Calls of one iteration of `Form.Validate` at position `i`: the text read
`o.1`, followed, when the field was seen as changed, by the calls of the one
`Field.Validate` run described by `o.2`. -/
def realtimeSeg (i : Nat) (o : String × Option (String × GoError)) : List Event :=
  Event.text i o.1 ::
    (match o.2 with
     | some v => validateSeg i v
     | none => [])

/-- What one iteration of `Form.Load` did: `To` returned `text` with an
error `msg`, or `To` returned `text` without error and the input held `prev`. -/
inductive LoadStep where
  | toFailed (text : String) (msg : String)
  | loaded (text : String) (prev : String)
  deriving DecidableEq, Repr

/-- Calls of one iteration of `Form.Load` at position `i`. -/
def loadSeg (i : Nat) : LoadStep → List Event
  | .toFailed t msg => [Event.to i (t, some msg), Event.setError i msg]
  | .loaded t p =>
    [Event.to i (t, none), Event.text i p, Event.clearError i, Event.setText i t]

/-- Calls of one iteration of `Form.Clear` at position `i`, `o` being what
`To` returned. -/
def clearSeg (i : Nat) (o : String × GoError) : List Event :=
  [Event.clear i, Event.to i o, Event.clearError i, Event.setText i o.1]

/-- The calls of a log that went through field position `j`. -/
def callsOf (j : Nat) (l : List Event) : List Event :=
  l.filter (fun e => e.idx == j)

/-! ## form/value/value.go -/

/-- Go standard library `unicode.IsSpace`: the Latin-1 white space characters
tab, line feed, vertical tab, form feed, carriage return, space, U+0085 and
U+00A0, and beyond Latin-1 the code points with the Unicode White_Space
property. -/
def IsSpace (c : Char) : Bool :=
  let r := c.toNat
  if r ≤ 0xFF then
    r == 0x09 || r == 0x0A || r == 0x0B || r == 0x0C || r == 0x0D || r == 0x20 ||
      r == 0x85 || r == 0xA0
  else
    r == 0x1680 || (0x2000 ≤ r && r ≤ 0x200A) || r == 0x2028 || r == 0x2029 ||
      r == 0x202F || r == 0x205F || r == 0x3000

/-- Go standard library `strings.TrimSpace`: the string without its leading
and trailing white space. -/
def TrimSpace (s : String) : String :=
  ⟨((s.data.dropWhile IsSpace).reverse.dropWhile IsSpace).reverse⟩

/-- Type `value.Required`: embeds a `form.Value`, so `To` and `Clear` are the
promoted methods of the wrapped value, and overrides `From` to reject text
that is empty once trimmed. -/
def Required {σ : Type} (v : Value σ) : Value σ where
  To := v.To
  From := fun text w =>
    if (TrimSpace text).utf8ByteSize == 0 then (some "required", w) else v.From text w
  Clear := v.Clear

/-! ## Go standard library used by form/parse and form/value

`int` and `time.Duration` are 64-bit signed integers, held in `ℤ`; results of
arithmetic that can leave the range are wrapped with `wrap64`. -/

/-- Two's-complement reduction of an integer into the `int64` range. -/
def wrap64 (x : ℤ) : ℤ := (x + 2 ^ 63) % 2 ^ 64 - 2 ^ 63

/-- Value of a decimal digit character, `none` for any other character. -/
def digitValue (c : Char) : Option ℕ :=
  if 48 ≤ c.toNat ∧ c.toNat ≤ 57 then some (c.toNat - 48) else none

/-- Reads decimal digits from the left, starting from the value `acc`. -/
def decimalFold (acc : ℕ) : List Char → Option ℕ
  | [] => some acc
  | c :: cs =>
    match digitValue c with
    | none => none
    | some d => decimalFold (acc * 10 + d) cs

/-- Value of a non-empty run of decimal digits. -/
def parseDecimal (cs : List Char) : Option ℕ :=
  if cs.isEmpty then none else decimalFold 0 cs

/-- Go standard library `strconv.Atoi` on a 64-bit platform: an optional
sign followed by one or more decimal digits whose value fits `int`; `none`
stands for a non-nil error (syntax or range).  The number Go returns next to
an error is not modelled: no caller in this repository uses it. -/
def Atoi (s : String) : Option ℤ :=
  match s.data with
  | [] => none
  | c :: cs =>
    if c = '-' then
      (parseDecimal cs).bind (fun n => if n ≤ 2 ^ 63 then some (-(n : ℤ)) else none)
    else if c = '+' then
      (parseDecimal cs).bind (fun n => if n < 2 ^ 63 then some (n : ℤ) else none)
    else
      (parseDecimal (c :: cs)).bind (fun n => if n < 2 ^ 63 then some (n : ℤ) else none)

/-- Go standard library `strconv.Itoa`: the decimal rendering of an `int`. -/
def Itoa (n : ℤ) : String :=
  if n < 0 then "-" ++ Nat.repr n.natAbs else Nat.repr n.natAbs

/-- Pieces of a character list between the occurrences of `sep`. -/
def splitChars (sep : Char) : List Char → List (List Char)
  | [] => [[]]
  | c :: cs =>
    if c = sep then [] :: splitChars sep cs
    else
      match splitChars sep cs with
      | [] => [[c]]
      | p :: ps => (c :: p) :: ps

/-- Go standard library `strings.Split(s, sep)` for a separator of one
character: the substrings between the separators, one more than there are
separators. -/
def Split (s : String) (sep : Char) : List String :=
  (splitChars sep s.data).map String.mk

/-- Go constant `time.Hour`, in nanoseconds. -/
def Hour : ℤ := 3600000000000

/-- Go type `time.Time` as far as `parse.Date` needs it: the zero value, or
the result of `time.Date(year, time.Month(month), day, 0, 0, 0, 0, time.Local)`
kept as the three arguments (the normalisation done by the library is not
modelled). -/
inductive Time where
  | zero
  | date (year month day : ℤ)
  deriving DecidableEq, Repr

/-- A Go pointer into caller-owned storage of type `α` inside the world `σ`:
dereferencing reads the slot, assigning through it overwrites the slot, and a
read after an assignment yields the assigned value. -/
structure Ptr (σ α : Type) where
  get : σ → α
  set : α → σ → σ
  get_set : ∀ a w, get (set a w) = a

/-! ## form/parse/parse.go -/

/-- Function `parse.Int`: parses an integer from digit characters. -/
def parse.Int (s : String) : ℤ × GoError :=
  match Atoi s with
  | none => (0, some "must be a valid number")
  | some n => (n, none)

/-- Function `parse.Uint`: parses an unsigned integer from digit characters. -/
def parse.Uint (s : String) : ℕ × GoError :=
  match Atoi s with
  | none => (0, some "must be a valid number")
  | some n =>
    if n < 1 then (0, some "must be an amount greater than 0")
    else ((n % 2 ^ 64).toNat, none)

/-- Function `parse.Day`: parses a day count into a duration. -/
def parse.Day (s : String) : ℤ × GoError :=
  match parse.Uint s with
  | (_, some e) => (0, some e)
  | (n, none) => (wrap64 (Hour * 24 * wrap64 (n : ℤ)), none)

/-- Function `parse.Date`: parses a time from a textual dd/mm/yyyy format. -/
def parse.Date (s : String) : Time × GoError :=
  match Split s '/' with
  | [p0, p1, p2] =>
    match Atoi p2 with
    | none => (Time.zero, some ("year not a number: " ++ p2))
    | some year =>
      match Atoi p1 with
      | none => (Time.zero, some ("month not a number: " ++ p2))
      | some month =>
        match Atoi p0 with
        | none => (Time.zero, some ("day not a number: " ++ p2))
        | some day => (Time.date year month day, none)
  | _ => (Time.zero, some "must be dd/mm/yyyy")

/-! ## form/value/value.go: the typed values -/

/-- Type `value.Int`: maps text to an integer number. -/
structure value.Int (σ : Type) where
  Value : Ptr σ ℤ
  Default : ℤ

/-- Method `value.Int.To`. -/
def value.Int.To {σ : Type} (v : value.Int σ) (w : σ) : (String × GoError) × σ :=
  let n := v.Value.get w
  ((Itoa (if n = 0 then v.Default else n), none), w)

/-- Method `value.Int.From`. -/
def value.Int.From {σ : Type} (v : value.Int σ) (text : String) (w : σ) : GoError × σ :=
  let r := parse.Int text
  (r.2, v.Value.set r.1 w)

/-- Method `value.Int.Clear`. -/
def value.Int.Clear {σ : Type} (v : value.Int σ) (w : σ) : σ :=
  v.Value.set 0 w

/-- A `value.Int` used as a `form.Value`. -/
def value.Int.toValue {σ : Type} (v : value.Int σ) : GioPlanet.Value σ :=
  ⟨v.To, v.From, v.Clear⟩

/-- Type `value.Text`: wraps a text value. -/
structure value.Text (σ : Type) where
  Value : Ptr σ String

/-- Method `value.Text.To`. -/
def value.Text.To {σ : Type} (v : value.Text σ) (w : σ) : (String × GoError) × σ :=
  ((v.Value.get w, none), w)

/-- Method `value.Text.From`. -/
def value.Text.From {σ : Type} (v : value.Text σ) (text : String) (w : σ) : GoError × σ :=
  (none, v.Value.set text w)

/-- Method `value.Text.Clear`. -/
def value.Text.Clear {σ : Type} (v : value.Text σ) (w : σ) : σ :=
  v.Value.set "" w

/-- A `value.Text` used as a `form.Value`. -/
def value.Text.toValue {σ : Type} (v : value.Text σ) : GioPlanet.Value σ :=
  ⟨v.To, v.From, v.Clear⟩

/-- Type `value.Days`: maps text to 24 hour units of time. -/
structure value.Days (σ : Type) where
  Value : Ptr σ ℤ

/-- Method `value.Days.To`. -/
def value.Days.To {σ : Type} (v : value.Days σ) (w : σ) : (String × GoError) × σ :=
  let days := wrap64 ((v.Value.get w).tdiv (Hour * 24))
  ((Itoa days, none), w)

/-- Method `value.Days.From`. -/
def value.Days.From {σ : Type} (v : value.Days σ) (text : String) (w : σ) : GoError × σ :=
  let r := parse.Day text
  (r.2, v.Value.set r.1 w)

/-- Method `value.Days.Clear`. -/
def value.Days.Clear {σ : Type} (v : value.Days σ) (w : σ) : σ :=
  v.Value.set (Hour * 24) w

/-- A `value.Days` used as a `form.Value`. -/
def value.Days.toValue {σ : Type} (v : value.Days σ) : GioPlanet.Value σ :=
  ⟨v.To, v.From, v.Clear⟩

/-- Number denoted by a run of decimal digits, read from the left. -/
def decimalValue (ds : List Char) : ℕ :=
  ds.foldl (fun a c => a * 10 + (digitValue c).getD 0) 0

/-- The pointer to a storage slot that is the whole world. -/
def Ptr.self (α : Type) : Ptr α α := ⟨fun w => w, fun a _ => a, fun _ _ => rfl⟩

/-! ## form/form_test.go: the test doubles -/

/-- Struct `MockInputCalls`: call counters of a `MockInput`. -/
structure MockInputCalls where
  SetText : Nat
  Text : Nat
  SetError : Nat
  ClearError : Nat
  deriving DecidableEq, Repr

/-- Struct `MockValueCalls`: call counters of a `MockValue`. -/
structure MockValueCalls where
  To : Nat
  From : Nat
  Clear : Nat
  deriving DecidableEq, Repr

/-- World of a test with one mock input and one mock value. -/
structure MockWorld where
  input : MockInputCalls
  value : MockValueCalls
  deriving DecidableEq, Repr

/-- The world in which no call has been counted yet. -/
def MockWorld.fresh : MockWorld := ⟨⟨0, 0, 0, 0⟩, ⟨0, 0, 0⟩⟩

/-- Type `MockInput`: counts method calls; its text is always empty. -/
def MockInput : Input MockWorld where
  Text := fun w => ("", { w with input := { w.input with Text := w.input.Text + 1 } })
  SetText := fun _ w => { w with input := { w.input with SetText := w.input.SetText + 1 } }
  SetError := fun _ w => { w with input := { w.input with SetError := w.input.SetError + 1 } }
  ClearError := fun w =>
    { w with input := { w.input with ClearError := w.input.ClearError + 1 } }

/-- Type `StableInput`: a `MockInput` whose `Text` is overridden to return
"stable" without counting. -/
def StableInput : Input MockWorld :=
  { MockInput with Text := fun w => ("stable", w) }

/-- Type `MockValue`: counts method calls; never fails. -/
def MockValue : Value MockWorld where
  To := fun w => (("", none), { w with value := { w.value with To := w.value.To + 1 } })
  From := fun _ w => (none, { w with value := { w.value with From := w.value.From + 1 } })
  Clear := fun w => { w with value := { w.value with Clear := w.value.Clear + 1 } }

/-- Type `FailingValue`: a `MockValue` whose `To` and `From` are overridden
to fail with "failed" without counting. -/
def FailingValue : Value MockWorld :=
  { MockValue with
    To := fun w => (("", some "failed"), w)
    From := fun _ w => (some "failed", w) }

/-- A system in the fresh mock world with an empty call log. -/
def Sys.fresh : Sys MockWorld := ⟨MockWorld.fresh, []⟩

/-- Test field `{Value: &MockValue{}, Input: &MockInput{}}`. -/
def mockField : Field MockWorld := ⟨MockValue, MockInput⟩

/-- Test field `{Value: &FailingValue{}, Input: &MockInput{}}`. -/
def failingField : Field MockWorld := ⟨FailingValue, MockInput⟩

/-- Test field `{Value: &MockValue{}, Input: &StableInput{}}`. -/
def stableField : Field MockWorld := ⟨MockValue, StableInput⟩

/-- A form over `[stableField, mockField]` whose cache holds the text of the
first input and an outdated text for the second. -/
def sampleForm : Form MockWorld := ⟨[stableField, mockField], ["stable", "seen"]⟩

/-- Widget `component.TextField` (external library) as far as the form uses
it: the text it shows and the error it displays. -/
structure TextField where
  text : String
  err : Option String
  deriving DecidableEq, Repr

/-- A `*component.TextField` used as a `form.Input`. -/
def TextField.asInput {σ : Type} (p : Ptr σ TextField) : Input σ where
  Text := fun w => ((p.get w).text, w)
  SetText := fun t w => p.set { p.get w with text := t } w
  SetError := fun m w => p.set { p.get w with err := some m } w
  ClearError := fun w => p.set { p.get w with err := none } w

/-- Struct `PersonForm` without the form itself: the model fields `Age` and
`Name` and their two inputs (the `Salary` field is a float and left out). -/
structure PersonForm where
  Age : ℤ
  Name : String
  AgeInput : TextField
  NameInput : TextField
  deriving DecidableEq, Repr

/-- Pointer `&pf.Model.Age`. -/
def agePtr : Ptr PersonForm ℤ := ⟨fun w => w.Age, fun a w => { w with Age := a }, fun _ _ => rfl⟩

/-- Pointer `&pf.Model.Name`. -/
def namePtr : Ptr PersonForm String :=
  ⟨fun w => w.Name, fun a w => { w with Name := a }, fun _ _ => rfl⟩

/-- Pointer `&pf.Inputs.Age`. -/
def ageInputPtr : Ptr PersonForm TextField :=
  ⟨fun w => w.AgeInput, fun a w => { w with AgeInput := a }, fun _ _ => rfl⟩

/-- Pointer `&pf.Inputs.Name`. -/
def nameInputPtr : Ptr PersonForm TextField :=
  ⟨fun w => w.NameInput, fun a w => { w with NameInput := a }, fun _ _ => rfl⟩

/-- The fields `PersonForm.Update` loads: the age as a `value.Int` with
default 18, the name as a required `value.Text`. -/
def personFields : List (Field PersonForm) :=
  [⟨(value.Int.mk agePtr 18).toValue, TextField.asInput ageInputPtr⟩,
   ⟨Required (value.Text.mk namePtr).toValue, TextField.asInput nameInputPtr⟩]

/-- The person form after the user typed the name "Al", had it validated,
and erased it again: the name input is empty and shows no error. -/
def PersonForm.erased : PersonForm := ⟨18, "Al", ⟨"18", none⟩, ⟨"", none⟩⟩

/-! ## The operations as the spec words them (spec §4.2 and §4.3)

Written directly with the interface methods, independently of the loops
above; the theorems compare the two. -/

/-- Spec §4.3, "for each field, in order": the system reached from `s` when
the fields are handled one after the other, starting at position `k`, where
`step i fld` is what handling field `fld` at position `i` does. -/
def inOrder {σ : Type} (step : Nat → Field σ → Sys σ → Sys σ) :
    Nat → List (Field σ) → Sys σ → Sys σ
  | _, [], s => s
  | k, fld :: rest, s => inOrder step (k + 1) rest (step k fld s)

/-- What is observed at each field while the fields are handled in order:
`out i fld w` is the observation made at field `fld` (position `i`) in the
world `w` reached just before it is handled. -/
def outsAlong {σ α : Type} (step : Nat → Field σ → Sys σ → Sys σ)
    (out : Nat → Field σ → σ → α) : Nat → List (Field σ) → Sys σ → List α
  | _, [], _ => []
  | k, fld :: rest, s => out k fld s.world :: outsAlong step out (k + 1) rest (step k fld s)

/-- Spec §4.2: the text read from the input and what `Value.From` returns
for it, in world `w`. -/
def validateOut {σ : Type} (fld : Field σ) (w : σ) : String × GoError :=
  ((fld.Input.Text w).1, (fld.Value.From (fld.Input.Text w).1 (fld.Input.Text w).2).1)

/-- Spec §4.2: the world after one field validation: the text is read, passed
to `Value.From`, and the error is set on the input or cleared. -/
def validateWorld {σ : Type} (fld : Field σ) (w : σ) : σ :=
  match (fld.Value.From (fld.Input.Text w).1 (fld.Input.Text w).2).1 with
  | some msg =>
    fld.Input.SetError msg (fld.Value.From (fld.Input.Text w).1 (fld.Input.Text w).2).2
  | none => fld.Input.ClearError (fld.Value.From (fld.Input.Text w).1 (fld.Input.Text w).2).2

/-- Spec §4.2 and §4.3 Submit: one field validation at position `i`. -/
def validateSpec {σ : Type} (i : Nat) (fld : Field σ) (s : Sys σ) : Sys σ :=
  ⟨validateWorld fld s.world, s.log ++ validateSeg i (validateOut fld s.world)⟩

/-- Spec §4.3 Validate: the text read from the input in world `w` and, when
it differs from the cached text at position `i`, the observation of the field
validation that follows. -/
def realtimeOut {σ : Type} (cache : List String) (i : Nat) (fld : Field σ) (w : σ) :
    String × Option (String × GoError) :=
  ((fld.Input.Text w).1,
    if cache[i]? = some (fld.Input.Text w).1 then none
    else some (validateOut fld (fld.Input.Text w).2))

/-- Spec §4.3 Validate: the world after the field at position `i` was
handled: only the read when the text equals the cached one, a field
validation after the read otherwise. -/
def realtimeWorld {σ : Type} (cache : List String) (i : Nat) (fld : Field σ) (w : σ) : σ :=
  if cache[i]? = some (fld.Input.Text w).1 then (fld.Input.Text w).2
  else validateWorld fld (fld.Input.Text w).2

/-- Spec §4.3 Validate: handling the field at position `i` against the cache
`cache` the run started with. -/
def realtimeSpec {σ : Type} (cache : List String) (i : Nat) (fld : Field σ) (s : Sys σ) :
    Sys σ :=
  ⟨realtimeWorld cache i fld s.world, s.log ++ realtimeSeg i (realtimeOut cache i fld s.world)⟩

/-- Spec §4.3 Load: what `Value.To` returns in world `w` and, on success, the
text the input holds right after that call. -/
def loadOut {σ : Type} (fld : Field σ) (w : σ) : LoadStep :=
  match (fld.Value.To w).1.2 with
  | some msg => LoadStep.toFailed (fld.Value.To w).1.1 msg
  | none => LoadStep.loaded (fld.Value.To w).1.1 (fld.Input.Text (fld.Value.To w).2).1

/-- Spec §4.3 Load: the world after one field was loaded: on a `To` error the
error is surfaced on the input; on success the input text is read, the error
cleared and the text overwritten with the rendered value. -/
def loadWorld {σ : Type} (fld : Field σ) (w : σ) : σ :=
  match (fld.Value.To w).1.2 with
  | some msg => fld.Input.SetError msg (fld.Value.To w).2
  | none =>
    fld.Input.SetText (fld.Value.To w).1.1
      (fld.Input.ClearError (fld.Input.Text (fld.Value.To w).2).2)

/-- Spec §4.3 Load: loading the field at position `i`. -/
def loadSpec {σ : Type} (i : Nat) (fld : Field σ) (s : Sys σ) : Sys σ :=
  ⟨loadWorld fld s.world, s.log ++ loadSeg i (loadOut fld s.world)⟩

/-- Spec §4.3 Clear: what `Value.To` returns right after `Value.Clear`. -/
def clearOut {σ : Type} (fld : Field σ) (w : σ) : String × GoError :=
  (fld.Value.To (fld.Value.Clear w)).1

/-- Spec §4.3 Clear: the world after one field was cleared: the value is
reset and rendered, the input error cleared and the input text overwritten
with the rendering. -/
def clearWorld {σ : Type} (fld : Field σ) (w : σ) : σ :=
  fld.Input.SetText (fld.Value.To (fld.Value.Clear w)).1.1
    (fld.Input.ClearError (fld.Value.To (fld.Value.Clear w)).2)

/-- Spec §4.3 Clear: clearing the field at position `i`. -/
def clearSpec {σ : Type} (i : Nat) (fld : Field σ) (s : Sys σ) : Sys σ :=
  ⟨clearWorld fld s.world, s.log ++ clearSeg i (clearOut fld s.world)⟩

/-! ## Theorems -/

section Traces

variable {α : Type}

theorem traceOf_idx_ge (seg : Nat → α → List Event)
    (hseg : ∀ i o, ∀ e ∈ seg i o, e.idx = i) (os : List α) :
    ∀ k, ∀ e ∈ traceOf seg k os, k ≤ e.idx := by
  induction os with
  | nil => intro k e he; simp [traceOf] at he
  | cons o os ih =>
    intro k e he
    simp only [traceOf, List.mem_append] at he
    rcases he with he | he
    · exact (hseg k o e he).ge
    · exact Nat.le_of_succ_le (ih (k + 1) e he)

theorem traceOf_callsOf (seg : Nat → α → List Event)
    (hseg : ∀ i o, ∀ e ∈ seg i o, e.idx = i) (os : List α) :
    ∀ k j o, os[j]? = some o → callsOf (k + j) (traceOf seg k os) = seg (k + j) o := by
  induction os with
  | nil => intro k j o h; simp at h
  | cons x os ih =>
    intro k j o h
    cases j with
    | zero =>
      simp only [List.getElem?_cons_zero, Option.some.injEq] at h
      subst h
      have h1 : (seg k x).filter (fun e => e.idx == k) = seg k x :=
        List.filter_eq_self.mpr (fun e he => by simp [hseg k x e he])
      have h2 : (traceOf seg (k + 1) os).filter (fun e => e.idx == k) = [] :=
        List.filter_eq_nil_iff.mpr (fun e he => by
          have := traceOf_idx_ge seg hseg os (k + 1) e he
          simp only [beq_iff_eq]
          omega)
      simp [callsOf, traceOf, h1, h2]
    | succ j =>
      simp only [List.getElem?_cons_succ] at h
      have h1 : (seg k x).filter (fun e => e.idx == k + (j + 1)) = [] :=
        List.filter_eq_nil_iff.mpr (fun e he => by
          have := hseg k x e he
          simp only [beq_iff_eq]
          omega)
      have h2 := ih (k + 1) j o h
      have e1 : k + 1 + j = k + (j + 1) := by omega
      rw [e1] at h2
      simp only [callsOf] at h2
      simp [callsOf, traceOf, h1, h2]

theorem traceOf_mem (seg : Nat → α → List Event) (os : List α) :
    ∀ k e, e ∈ traceOf seg k os → ∃ j o, os[j]? = some o ∧ e ∈ seg (k + j) o := by
  induction os with
  | nil => intro k e he; simp [traceOf] at he
  | cons x os ih =>
    intro k e he
    simp only [traceOf, List.mem_append] at he
    rcases he with he | he
    · exact ⟨0, x, by simp, by simpa using he⟩
    · obtain ⟨j, o, hj, ho⟩ := ih (k + 1) e he
      exact ⟨j + 1, o, by simpa using hj, by rwa [show k + (j + 1) = k + 1 + j by omega]⟩

theorem validateSeg_idx (i : Nat) (o : String × GoError) : ∀ e ∈ validateSeg i o, e.idx = i := by
  intro e he
  rcases o with ⟨t, r⟩
  cases r <;> simp [validateSeg, outcome] at he <;> rcases he with he | he | he <;>
    simp [he, Event.idx]

theorem realtimeSeg_idx (i : Nat) (o : String × Option (String × GoError)) :
    ∀ e ∈ realtimeSeg i o, e.idx = i := by
  intro e he
  rcases o with ⟨t, v⟩
  cases v with
  | none => simp [realtimeSeg] at he; simp [he, Event.idx]
  | some v =>
    simp only [realtimeSeg, List.mem_cons] at he
    rcases he with he | he
    · simp [he, Event.idx]
    · exact validateSeg_idx i v e he

theorem loadSeg_idx (i : Nat) (o : LoadStep) : ∀ e ∈ loadSeg i o, e.idx = i := by
  intro e he
  cases o with
  | toFailed t m =>
    simp [loadSeg] at he
    rcases he with he | he <;> simp [he, Event.idx]
  | loaded t p =>
    simp [loadSeg] at he
    rcases he with he | he | he | he <;> simp [he, Event.idx]

theorem clearSeg_idx (i : Nat) (o : String × GoError) : ∀ e ∈ clearSeg i o, e.idx = i := by
  intro e he
  simp [clearSeg] at he
  rcases he with he | he | he | he <;> simp [he, Event.idx]

end Traces

section FieldValidate

variable {σ : Type}

theorem Field.Validate_log (i : Nat) (field : Field σ) (s : Sys σ) :
    (field.Validate i s).2.log = s.log ++ validateSeg i
      ((field.Input.Text s.world).1,
       (field.Value.From (field.Input.Text s.world).1 (field.Input.Text s.world).2).1) := by
  unfold Field.Validate
  cases h : (field.Value.From (field.Input.Text s.world).1 (field.Input.Text s.world).2).1 <;>
    simp [callText, callFrom, callSetError, callClearError, validateSeg, outcome, h]

theorem Field.Validate_ok (i : Nat) (field : Field σ) (s : Sys σ) :
    (field.Validate i s).1 =
      (field.Value.From (field.Input.Text s.world).1 (field.Input.Text s.world).2).1.isNone := by
  unfold Field.Validate
  cases h : (field.Value.From (field.Input.Text s.world).1 (field.Input.Text s.world).2).1 <;>
    simp [callText, callFrom, h]

/-- C6: `Field.Validate` reads the input text `s` once, calls `Value.From(s)`
once, then calls `SetError` with exactly the error message (and no
`ClearError`) and returns false when `From` failed, or calls `ClearError`
(and no `SetError`) and returns true when it succeeded; it makes no `SetText`
call. -/
theorem Field_Validate_contract (i : Nat) (field : Field σ) (s : Sys σ) :
    ∃ (t : String) (w1 : σ) (r : GoError) (w2 : σ),
      field.Input.Text s.world = (t, w1) ∧ field.Value.From t w1 = (r, w2) ∧
      (field.Validate i s).1 = r.isNone ∧
      (∀ msg, r = some msg →
        field.Validate i s = (false, ⟨field.Input.SetError msg w2,
          s.log ++ [Event.text i t, Event.from i t (some msg), Event.setError i msg]⟩)) ∧
      (r = none →
        field.Validate i s = (true, ⟨field.Input.ClearError w2,
          s.log ++ [Event.text i t, Event.from i t none, Event.clearError i]⟩)) ∧
      (∀ e ∈ ((field.Validate i s).2.log.drop s.log.length), ∀ t1, e ≠ Event.setText i t1) := by
  refine ⟨(field.Input.Text s.world).1, (field.Input.Text s.world).2,
    (field.Value.From (field.Input.Text s.world).1 (field.Input.Text s.world).2).1,
    (field.Value.From (field.Input.Text s.world).1 (field.Input.Text s.world).2).2,
    rfl, rfl, Field.Validate_ok i field s, ?_, ?_, ?_⟩
  · intro msg h
    simp [Field.Validate, callText, callFrom, callSetError, h]
  · intro h
    simp [Field.Validate, callText, callFrom, callClearError, h]
  · intro e he t1
    rw [Field.Validate_log] at he
    simp only [List.drop_left, validateSeg] at he
    cases h : (field.Value.From (field.Input.Text s.world).1 (field.Input.Text s.world).2).1 <;>
      simp [h, outcome] at he <;> rcases he with he | he | he <;> simp [he]

end FieldValidate

section Runs

variable {σ α : Type}

theorem outsAlong_length (step : Nat → Field σ → Sys σ → Sys σ) (out : Nat → Field σ → σ → α)
    (fs : List (Field σ)) : ∀ k s, (outsAlong step out k fs s).length = fs.length := by
  induction fs with
  | nil => intro k s; rfl
  | cons fld rest ih => intro k s; simp [outsAlong, ih]

theorem outsAlong_getElem (step : Nat → Field σ → Sys σ → Sys σ)
    (out : Nat → Field σ → σ → α) (fs : List (Field σ)) :
    ∀ k s j fld, fs[j]? = some fld →
      (outsAlong step out k fs s)[j]? =
        some (out (k + j) fld (inOrder step k (fs.take j) s).world) := by
  induction fs with
  | nil => intro k s j fld h; simp at h
  | cons x rest ih =>
    intro k s j fld h
    cases j with
    | zero =>
      simp only [List.getElem?_cons_zero, Option.some.injEq] at h
      subst h
      simp [outsAlong, inOrder]
    | succ j =>
      simp only [List.getElem?_cons_succ] at h
      have := ih (k + 1) (step k x s) j fld h
      simp only [outsAlong, List.getElem?_cons_succ, List.take_succ_cons, inOrder, this]
      rw [show k + 1 + j = k + (j + 1) by omega]

theorem inOrder_take_succ (step : Nat → Field σ → Sys σ → Sys σ) (fs : List (Field σ)) :
    ∀ k s j fld, fs[j]? = some fld →
      inOrder step k (fs.take (j + 1)) s = step (k + j) fld (inOrder step k (fs.take j) s) := by
  induction fs with
  | nil => intro k s j fld h; simp at h
  | cons x rest ih =>
    intro k s j fld h
    cases j with
    | zero =>
      simp only [List.getElem?_cons_zero, Option.some.injEq] at h
      subst h
      simp [inOrder]
    | succ j =>
      simp only [List.getElem?_cons_succ] at h
      have := ih (k + 1) (step k x s) j fld h
      simp only [List.take_succ_cons, inOrder, this]
      rw [show k + 1 + j = k + (j + 1) by omega]

theorem inOrder_log (step : Nat → Field σ → Sys σ → Sys σ) (out : Nat → Field σ → σ → α)
    (seg : Nat → α → List Event)
    (hstep : ∀ i fld s, (step i fld s).log = s.log ++ seg i (out i fld s.world))
    (fs : List (Field σ)) :
    ∀ k s, (inOrder step k fs s).log = s.log ++ traceOf seg k (outsAlong step out k fs s) := by
  induction fs with
  | nil => intro k s; simp [inOrder, outsAlong, traceOf]
  | cons fld rest ih =>
    intro k s
    simp only [inOrder, outsAlong, traceOf, ih, hstep, List.append_assoc]

theorem Field.Validate_eq_spec (i : Nat) (field : Field σ) (s : Sys σ) :
    field.Validate i s = ((validateOut field s.world).2.isNone, validateSpec i field s) := by
  cases h : (field.Value.From (field.Input.Text s.world).1 (field.Input.Text s.world).2).1 <;>
    simp [Field.Validate, callText, callFrom, callSetError, callClearError, validateSpec,
      validateWorld, validateOut, validateSeg, outcome, h]

theorem Form.submitLoop_run (fs : List (Field σ)) :
    ∀ (k : Nat) (ok : Bool) (s : Sys σ),
      Form.submitLoop fs k ok s =
        (ok && (outsAlong validateSpec (fun _ => validateOut) k fs s).all
            (fun o => o.2.isNone),
          inOrder validateSpec k fs s) := by
  induction fs with
  | nil => intro k ok s; simp [Form.submitLoop, outsAlong, inOrder]
  | cons field rest ih =>
    intro k ok s
    rw [show Form.submitLoop (field :: rest) k ok s = Form.submitLoop rest (k + 1)
          (if !(field.Validate k s).1 then false else ok) (field.Validate k s).2 from rfl,
      ih, Field.Validate_eq_spec]
    simp only [outsAlong, inOrder, List.all_cons]
    cases (validateOut field s.world).2.isNone <;> cases ok <;> simp

theorem Form.validateLoop_run (C : List String) (fs : List (Field σ)) :
    ∀ (k : Nat) (cache : List String) (s : Sys σ), (∀ j, cache[k + j]? = C[k + j]?) →
      k + fs.length ≤ cache.length →
      ∃ cache1 : List String,
        Form.validateLoop fs k cache s = some (cache1, inOrder (realtimeSpec C) k fs s) ∧
        cache1.length = cache.length ∧
        (∀ j, j < k → cache1[j]? = cache[j]?) ∧
        (∀ j fld, fs[j]? = some fld →
          cache1[k + j]? =
            some (fld.Input.Text (inOrder (realtimeSpec C) k (fs.take j) s).world).1) := by
  induction fs with
  | nil =>
    intro k cache s _ _
    exact ⟨cache, rfl, rfl, fun _ _ => rfl, by simp⟩
  | cons field rest ih =>
    intro k cache s hagree hk
    simp only [List.length_cons] at hk
    have hkl : k < cache.length := by omega
    obtain ⟨c0, hc0⟩ : ∃ c0, cache[k]? = some c0 := ⟨cache[k], List.getElem?_eq_getElem hkl⟩
    have hC0 : C[k]? = some c0 := by rw [← hc0]; simpa using (hagree 0).symm
    by_cases hch : c0 = (field.Input.Text s.world).1
    · have hstep : realtimeSpec C k field s = (callText k field.Input s).2 := by
        simp [realtimeSpec, realtimeWorld, realtimeOut, realtimeSeg, callText, hC0, hch]
      obtain ⟨cache1, hrun, hcl, hlow, hent⟩ :=
        ih (k + 1) cache (callText k field.Input s).2
          (fun j => by rw [show k + 1 + j = k + (j + 1) by omega]; exact hagree (j + 1))
          (by omega)
      refine ⟨cache1, ?_, hcl, fun j hj => hlow j (by omega), ?_⟩
      · simp only [Form.validateLoop, hc0, inOrder, hstep]
        simp [callText, hch] at hrun ⊢
        exact hrun
      · intro j fld hj
        cases j with
        | zero =>
          simp only [List.getElem?_cons_zero, Option.some.injEq] at hj
          subst hj
          simp only [Nat.add_zero, List.take_zero, inOrder]
          rw [hlow k (by omega), hc0, hch]
        | succ j =>
          simp only [List.getElem?_cons_succ] at hj
          have := hent j fld hj
          simp only [List.take_succ_cons, inOrder, hstep]
          rw [show k + (j + 1) = k + 1 + j by omega]
          exact this
    · have hstep : realtimeSpec C k field s = (field.Validate k (callText k field.Input s).2).2 := by
        have hne : ¬ C[k]? = some (field.Input.Text s.world).1 := by
          rw [hC0]; simpa using hch
        rw [Field.Validate_eq_spec]
        simp [realtimeSpec, realtimeWorld, realtimeOut, realtimeSeg, validateSpec, callText, hne]
      obtain ⟨cache1, hrun, hcl, hlow, hent⟩ :=
        ih (k + 1) (cache.set k (field.Input.Text s.world).1)
          (field.Validate k (callText k field.Input s).2).2
          (fun j => by
            rw [List.getElem?_set_ne (by omega), show k + 1 + j = k + (j + 1) by omega]
            exact hagree (j + 1))
          (by simp; omega)
      refine ⟨cache1, ?_, by simpa using hcl, ?_, ?_⟩
      · simp only [Form.validateLoop, hc0, inOrder, hstep]
        simp [callText, hch] at hrun ⊢
        exact hrun
      · intro j hj
        rw [hlow j (by omega), List.getElem?_set_ne (by omega)]
      · intro j fld hj
        cases j with
        | zero =>
          simp only [List.getElem?_cons_zero, Option.some.injEq] at hj
          subst hj
          simp only [Nat.add_zero, List.take_zero, inOrder]
          rw [hlow k (by omega)]
          simp [hkl]
        | succ j =>
          simp only [List.getElem?_cons_succ] at hj
          have := hent j fld hj
          simp only [List.take_succ_cons, inOrder, hstep]
          rw [show k + (j + 1) = k + 1 + j by omega]
          exact this

theorem Form.loadLoop_run (fs : List (Field σ)) :
    ∀ (k : Nat) (cache : List String) (s : Sys σ), k + fs.length ≤ cache.length →
      ∃ cache1 : List String,
        Form.loadLoop fs k cache s = some (cache1, inOrder loadSpec k fs s) ∧
        cache1.length = cache.length ∧
        (∀ j, j < k → cache1[j]? = cache[j]?) ∧
        (∀ j fld w, fs[j]? = some fld → w = (inOrder loadSpec k (fs.take j) s).world →
          ((fld.Value.To w).1.2 = none →
            cache1[k + j]? = some (fld.Input.Text (fld.Value.To w).2).1) ∧
          ((fld.Value.To w).1.2 ≠ none → cache1[k + j]? = cache[k + j]?)) := by
  induction fs with
  | nil =>
    intro k cache s _
    exact ⟨cache, rfl, rfl, fun _ _ => rfl, by simp⟩
  | cons field rest ih =>
    intro k cache s hk
    simp only [List.length_cons] at hk
    have hkl : k < cache.length := by omega
    cases hto : (field.Value.To s.world).1.2 with
    | some msg =>
      have hstep : loadSpec k field s
          = callSetError k field.Input msg (callTo k field.Value s).2 := by
        have e : (field.Value.To s.world).1 = ((field.Value.To s.world).1.1, some msg) :=
          Prod.ext rfl hto
        simp only [loadSpec, loadWorld, loadOut, loadSeg, callSetError, callTo, hto,
          List.append_assoc, List.singleton_append]
        rw [← e]
      obtain ⟨cache1, hrun, hcl, hlow, hent⟩ :=
        ih (k + 1) cache (callSetError k field.Input msg (callTo k field.Value s).2) (by omega)
      refine ⟨cache1, ?_, hcl, fun j hj => hlow j (by omega), ?_⟩
      · simp only [Form.loadLoop, callTo, hto, inOrder, hstep]
        simpa [callTo] using hrun
      · intro j fld w hj hw
        cases j with
        | zero =>
          simp only [List.getElem?_cons_zero, Option.some.injEq] at hj
          subst hj
          simp only [List.take_zero, inOrder] at hw
          subst hw
          refine ⟨fun h => by rw [hto] at h; exact absurd h (by simp), fun _ => ?_⟩
          exact hlow k (by omega)
        | succ j =>
          simp only [List.getElem?_cons_succ] at hj
          simp only [List.take_succ_cons, inOrder, hstep] at hw
          rw [show k + (j + 1) = k + 1 + j by omega]
          exact hent j fld w hj hw
    | none =>
      have hstep : loadSpec k field s
          = callSetText k field.Input (callTo k field.Value s).1.1
              (callClearError k field.Input
                (callText k field.Input (callTo k field.Value s).2).2) := by
        have e : (field.Value.To s.world).1 = ((field.Value.To s.world).1.1, none) :=
          Prod.ext rfl hto
        simp only [loadSpec, loadWorld, loadOut, loadSeg, callSetText, callClearError, callText,
          callTo, hto, List.append_assoc, List.singleton_append]
        rw [← e]
        simp
      obtain ⟨cache1, hrun, hcl, hlow, hent⟩ :=
        ih (k + 1) (cache.set k (callText k field.Input (callTo k field.Value s).2).1)
          (callSetText k field.Input (callTo k field.Value s).1.1
            (callClearError k field.Input (callText k field.Input (callTo k field.Value s).2).2))
          (by simp; omega)
      refine ⟨cache1, ?_, by simpa using hcl, ?_, ?_⟩
      · simp only [Form.loadLoop, callTo, hto, hkl, if_true, inOrder, hstep]
        simpa [callTo] using hrun
      · intro j hj
        rw [hlow j (by omega), List.getElem?_set_ne (by omega)]
      · intro j fld w hj hw
        cases j with
        | zero =>
          simp only [List.getElem?_cons_zero, Option.some.injEq] at hj
          subst hj
          simp only [List.take_zero, inOrder] at hw
          subst hw
          refine ⟨fun _ => ?_, fun h => absurd hto h⟩
          rw [Nat.add_zero, hlow k (by omega)]
          simp [callText, callTo, hkl]
        | succ j =>
          simp only [List.getElem?_cons_succ] at hj
          simp only [List.take_succ_cons, inOrder, hstep] at hw
          rw [show k + (j + 1) = k + 1 + j by omega]
          obtain ⟨h1, h2⟩ := hent j fld w hj hw
          refine ⟨h1, fun h => ?_⟩
          rw [h2 h, List.getElem?_set_ne (by omega)]

theorem Form.clearLoop_run (fs : List (Field σ)) :
    ∀ (k : Nat) (cache : List String) (s : Sys σ), k + fs.length ≤ cache.length →
      ∃ cache1 : List String,
        Form.clearLoop fs k cache s = some (cache1, inOrder clearSpec k fs s) ∧
        cache1.length = cache.length ∧
        (∀ j, j < k → cache1[j]? = cache[j]?) ∧
        (∀ j fld, fs[j]? = some fld →
          cache1[k + j]? =
            some (fld.Value.To
              (fld.Value.Clear (inOrder clearSpec k (fs.take j) s).world)).1.1) := by
  induction fs with
  | nil =>
    intro k cache s _
    exact ⟨cache, rfl, rfl, fun _ _ => rfl, by simp⟩
  | cons field rest ih =>
    intro k cache s hk
    simp only [List.length_cons] at hk
    have hkl : k < cache.length := by omega
    have hstep : clearSpec k field s
        = callSetText k field.Input (callTo k field.Value (callClear k field.Value s)).1.1
            (callClearError k field.Input (callTo k field.Value (callClear k field.Value s)).2) := by
      simp [clearSpec, clearWorld, clearOut, clearSeg, callSetText, callClearError, callTo,
        callClear]
    obtain ⟨cache1, hrun, hcl, hlow, hent⟩ :=
      ih (k + 1) (cache.set k (callTo k field.Value (callClear k field.Value s)).1.1)
        (callSetText k field.Input (callTo k field.Value (callClear k field.Value s)).1.1
          (callClearError k field.Input (callTo k field.Value (callClear k field.Value s)).2))
        (by simp; omega)
    refine ⟨cache1, ?_, by simpa using hcl, ?_, ?_⟩
    · simp only [Form.clearLoop, hkl, if_true, inOrder, hstep]
      exact hrun
    · intro j hj
      rw [hlow j (by omega), List.getElem?_set_ne (by omega)]
    · intro j fld hj
      cases j with
      | zero =>
        simp only [List.getElem?_cons_zero, Option.some.injEq] at hj
        subst hj
        simp only [Nat.add_zero, List.take_zero, inOrder]
        rw [hlow k (by omega)]
        simp [callTo, callClear, hkl]
      | succ j =>
        simp only [List.getElem?_cons_succ] at hj
        have := hent j fld hj
        simp only [List.take_succ_cons, inOrder, hstep]
        rw [show k + (j + 1) = k + 1 + j by omega]
        exact this

theorem inOrder_callsOf (step : Nat → Field σ → Sys σ → Sys σ) (out : Nat → Field σ → σ → α)
    (seg : Nat → α → List Event)
    (hstep : ∀ i fld s, (step i fld s).log = s.log ++ seg i (out i fld s.world))
    (hseg : ∀ i o, ∀ e ∈ seg i o, e.idx = i)
    (fs : List (Field σ)) (s : Sys σ) (j : Nat) (fld : Field σ) (h : fs[j]? = some fld) :
    callsOf j ((inOrder step 0 fs s).log.drop s.log.length) =
      seg j (out j fld (inOrder step 0 (fs.take j) s).world) := by
  rw [inOrder_log step out seg hstep fs 0 s, List.drop_left]
  have h1 := outsAlong_getElem step out fs 0 s j fld h
  have h2 := traceOf_callsOf seg hseg (outsAlong step out 0 fs s) 0 j _ h1
  simpa using h2

theorem Form.Submit_run (f : Form σ) (s : Sys σ) :
    f.Submit s =
      ((outsAlong validateSpec (fun _ => validateOut) 0 f.Fields s).all (fun o => o.2.isNone),
        f, inOrder validateSpec 0 f.Fields s) := by
  simp [Form.Submit, Form.submitLoop_run]

theorem Form.Validate_run (f : Form σ) (s : Sys σ) (h : f.cache.length = f.Fields.length) :
    ∃ cache1 : List String,
      f.Validate s = some (⟨f.Fields, cache1⟩, inOrder (realtimeSpec f.cache) 0 f.Fields s) ∧
      cache1.length = f.cache.length ∧
      (∀ (j : Nat) (fld : Field σ), f.Fields[j]? = some fld →
        cache1[j]? =
          some (fld.Input.Text
            (inOrder (realtimeSpec f.cache) 0 (f.Fields.take j) s).world).1) := by
  obtain ⟨cache1, hrun, hcl, -, hent⟩ :=
    Form.validateLoop_run f.cache f.Fields 0 f.cache s (fun _ => rfl) (by omega)
  exact ⟨cache1, by simp [Form.Validate, hrun], hcl,
    fun j fld hj => by simpa using hent j fld hj⟩

theorem Form.Load_run (f : Form σ) (fields : List (Field σ)) (s : Sys σ) (hne : fields ≠ []) :
    ∃ cache1 : List String,
      f.Load fields s = some (⟨fields, cache1⟩, inOrder loadSpec 0 fields s) ∧
      cache1.length = fields.length ∧
      (∀ (j : Nat) (fld : Field σ) (w : σ), fields[j]? = some fld →
        w = (inOrder loadSpec 0 (fields.take j) s).world →
        ((fld.Value.To w).1.2 = none →
          cache1[j]? = some (fld.Input.Text (fld.Value.To w).2).1) ∧
        ((fld.Value.To w).1.2 ≠ none → cache1[j]? = some "")) := by
  have hpos : 0 < fields.length := List.length_pos.mpr hne
  obtain ⟨cache1, hrun, hcl, -, hent⟩ :=
    Form.loadLoop_run fields 0 (List.replicate fields.length "") s (by simp)
  refine ⟨cache1, by simp [Form.Load, hpos, hrun], by simpa using hcl, ?_⟩
  intro j fld w hj hw
  obtain ⟨h1, h2⟩ := hent j fld w hj hw
  simp only [Nat.zero_add] at h1 h2
  refine ⟨h1, fun h => ?_⟩
  have hjl : j < fields.length := by
    rcases Nat.lt_or_ge j fields.length with h | h
    · exact h
    · simp [List.getElem?_eq_none h] at hj
  rw [h2 h]
  simp [List.getElem?_replicate, hjl]

theorem Form.Clear_run (f : Form σ) (s : Sys σ) (h : f.cache.length = f.Fields.length) :
    ∃ cache1 : List String,
      f.Clear s = some (⟨f.Fields, cache1⟩, inOrder clearSpec 0 f.Fields s) ∧
      cache1.length = f.cache.length ∧
      (∀ (j : Nat) (fld : Field σ), f.Fields[j]? = some fld →
        cache1[j]? =
          some (fld.Value.To
            (fld.Value.Clear (inOrder clearSpec 0 (f.Fields.take j) s).world)).1.1) := by
  obtain ⟨cache1, hrun, hcl, -, hent⟩ :=
    Form.clearLoop_run f.Fields 0 f.cache s (by omega)
  exact ⟨cache1, by simp [Form.Clear, hrun], hcl,
    fun j fld hj => by simpa using hent j fld hj⟩

theorem getElem?_of_lt_length {β : Type} (l : List β) (j : Nat) (h : j < l.length) :
    ∃ x, l[j]? = some x :=
  ⟨l[j], List.getElem?_eq_getElem h⟩

theorem lt_length_of_getElem? {β : Type} (l : List β) (j : Nat) (x : β) (h : l[j]? = some x) :
    j < l.length := by
  rcases Nat.lt_or_ge j l.length with h1 | h1
  · exact h1
  · simp [List.getElem?_eq_none h1] at h

end Runs

section Clear

variable {σ : Type}

theorem Form.clearLoop_spec (fs : List (Field σ)) :
    ∀ (k : Nat) (cache : List String) (s : Sys σ), k + fs.length ≤ cache.length →
      ∃ (outs : List (String × GoError)) (cache1 : List String) (s1 : Sys σ),
        Form.clearLoop fs k cache s = some (cache1, s1) ∧
        outs.length = fs.length ∧
        s1.log = s.log ++ traceOf clearSeg k outs ∧
        cache1.length = cache.length ∧
        (∀ j, j < k → cache1[j]? = cache[j]?) ∧
        (∀ j o, outs[j]? = some o → cache1[k + j]? = some o.1) := by
  induction fs with
  | nil =>
    intro k cache s _
    exact ⟨[], cache, s, rfl, rfl, by simp [traceOf], rfl, fun _ _ => rfl, by simp⟩
  | cons field rest ih =>
    intro k cache s hk
    simp only [List.length_cons] at hk
    have hkl : k < cache.length := by omega
    obtain ⟨outs, cache1, s1, hrun, hlen, hlog, hcl, hlow, hent⟩ :=
      ih (k + 1) (cache.set k (callTo k field.Value (callClear k field.Value s)).1.1)
        (callSetText k field.Input (callTo k field.Value (callClear k field.Value s)).1.1
          (callClearError k field.Input (callTo k field.Value (callClear k field.Value s)).2))
        (by simp; omega)
    refine ⟨(field.Value.To (field.Value.Clear s.world)).1 :: outs, cache1, s1, ?_,
      by simp [hlen], ?_, by simpa using hcl, ?_, ?_⟩
    · simp only [Form.clearLoop, hkl, if_true]
      exact hrun
    · simp [hlog, callSetText, callClearError, callTo, callClear, traceOf, clearSeg]
    · intro j hj
      rw [hlow j (by omega), List.getElem?_set_ne (by omega)]
    · intro j o ho
      cases j with
      | zero =>
        simp only [List.getElem?_cons_zero, Option.some.injEq] at ho
        rw [Nat.add_zero, hlow k (by omega), ← ho]
        simp [callTo, callClear, hkl]
      | succ j =>
        simp only [List.getElem?_cons_succ] at ho
        rw [show k + (j + 1) = k + 1 + j by omega]
        exact hent j o ho

/-- C8: with a cache as long as `Fields`, `Form.Clear` completes and leaves
the system reached by clearing the fields in order.  At each field, in the
world `w` reached before it, it calls `Value.Clear`, then `Value.To` on the
reset value (ignoring its error), then `ClearError`, then `SetText` with the
text `To` returned, and the cache entry of the field is that same text: the
rendering of the reset value. -/
theorem Clear_resets_every_field (f : Form σ) (s : Sys σ)
    (h : f.cache.length = f.Fields.length) :
    ∃ (outs : List (String × GoError)) (f1 : Form σ) (s1 : Sys σ),
      f.Clear s = some (f1, s1) ∧ f1.Fields = f.Fields ∧
      outs.length = f.Fields.length ∧
      s1 = inOrder clearSpec 0 f.Fields s ∧
      s1.log = s.log ++ traceOf clearSeg 0 outs ∧
      f1.cache = outs.map Prod.fst ∧
      (∀ (j : Nat) (fld : Field σ) (w : σ), f.Fields[j]? = some fld →
        w = (inOrder clearSpec 0 (f.Fields.take j) s).world →
        outs[j]? = some (fld.Value.To (fld.Value.Clear w)).1 ∧
        f1.cache[j]? = some (fld.Value.To (fld.Value.Clear w)).1.1 ∧
        callsOf j (s1.log.drop s.log.length) =
          [Event.clear j, Event.to j (fld.Value.To (fld.Value.Clear w)).1, Event.clearError j,
           Event.setText j (fld.Value.To (fld.Value.Clear w)).1.1] ∧
        (inOrder clearSpec 0 (f.Fields.take (j + 1)) s).world =
          fld.Input.SetText (fld.Value.To (fld.Value.Clear w)).1.1
            (fld.Input.ClearError (fld.Value.To (fld.Value.Clear w)).2)) := by
  obtain ⟨cache1, hrun, hcl, hent⟩ := Form.Clear_run f s h
  have hlen := outsAlong_length clearSpec (fun _ => clearOut) f.Fields 0 s
  have htie : ∀ (j : Nat) (fld : Field σ), f.Fields[j]? = some fld →
      (outsAlong clearSpec (fun _ => clearOut) 0 f.Fields s)[j]? =
        some (fld.Value.To
          (fld.Value.Clear (inOrder clearSpec 0 (f.Fields.take j) s).world)).1 := by
    intro j fld hj
    rw [outsAlong_getElem clearSpec (fun _ => clearOut) f.Fields 0 s j fld hj]
    rfl
  refine ⟨outsAlong clearSpec (fun _ => clearOut) 0 f.Fields s, ⟨f.Fields, cache1⟩, _, hrun,
    rfl, hlen, rfl,
    inOrder_log clearSpec (fun _ => clearOut) clearSeg (fun _ _ _ => rfl) f.Fields 0 s, ?_, ?_⟩
  · apply List.ext_getElem?
    intro j
    rcases Nat.lt_or_ge j f.Fields.length with hj | hj
    · obtain ⟨fld, hfld⟩ := getElem?_of_lt_length f.Fields j hj
      show cache1[j]? = _
      rw [hent j fld hfld, List.getElem?_map, htie j fld hfld]
      rfl
    · show cache1[j]? = _
      rw [List.getElem?_eq_none (show cache1.length ≤ j by omega),
        List.getElem?_eq_none (by simpa [hlen] using hj)]
  · intro j fld w hj hw
    refine ⟨by rw [htie j fld hj, hw], by rw [hw]; exact hent j fld hj, ?_, ?_⟩
    · have := inOrder_callsOf clearSpec (fun _ => clearOut) clearSeg (fun _ _ _ => rfl)
        clearSeg_idx f.Fields s j fld hj
      rw [this, hw]
      rfl
    · rw [inOrder_take_succ clearSpec f.Fields 0 s j fld hj, hw]
      rfl

/-- The `Clear` theorem at the person form with the age 42 in the model and
stale texts in both inputs: the age input ends with the default "18", the
name input empty, and the cache is `["18", ""]`. -/
theorem Clear_resets_every_field_witness :
    (Form.mk personFields ["42", "Al"]).cache.length
      = (Form.mk personFields ["42", "Al"]).Fields.length ∧
    ((Form.mk personFields ["42", "Al"]).Clear
        ⟨⟨42, "Al", ⟨"42", some "old"⟩, ⟨"Al", none⟩⟩, []⟩).map
        (fun r => (r.1.cache, r.2.world))
      = some (["18", ""], ⟨0, "", ⟨"18", none⟩, ⟨"", none⟩⟩) ∧
    ∃ (outs : List (String × GoError)) (f1 : Form PersonForm) (s1 : Sys PersonForm),
      (Form.mk personFields ["42", "Al"]).Clear
        ⟨⟨42, "Al", ⟨"42", some "old"⟩, ⟨"Al", none⟩⟩, []⟩ = some (f1, s1) ∧
      f1.Fields = (Form.mk personFields ["42", "Al"]).Fields ∧
      outs.length = (Form.mk personFields ["42", "Al"]).Fields.length ∧
      s1 = inOrder clearSpec 0 (Form.mk personFields ["42", "Al"]).Fields
        ⟨⟨42, "Al", ⟨"42", some "old"⟩, ⟨"Al", none⟩⟩, []⟩ ∧
      s1.log = (Sys.mk (PersonForm.mk 42 "Al" ⟨"42", some "old"⟩ ⟨"Al", none⟩) []).log
        ++ traceOf clearSeg 0 outs ∧
      f1.cache = outs.map Prod.fst ∧
      (∀ (j : Nat) (fld : Field PersonForm) (w : PersonForm),
        (Form.mk personFields ["42", "Al"]).Fields[j]? = some fld →
        w = (inOrder clearSpec 0 ((Form.mk personFields ["42", "Al"]).Fields.take j)
          ⟨⟨42, "Al", ⟨"42", some "old"⟩, ⟨"Al", none⟩⟩, []⟩).world →
        outs[j]? = some (fld.Value.To (fld.Value.Clear w)).1 ∧
        f1.cache[j]? = some (fld.Value.To (fld.Value.Clear w)).1.1 ∧
        callsOf j (s1.log.drop
            (Sys.mk (PersonForm.mk 42 "Al" ⟨"42", some "old"⟩ ⟨"Al", none⟩) []).log.length) =
          [Event.clear j, Event.to j (fld.Value.To (fld.Value.Clear w)).1, Event.clearError j,
           Event.setText j (fld.Value.To (fld.Value.Clear w)).1.1] ∧
        (inOrder clearSpec 0 ((Form.mk personFields ["42", "Al"]).Fields.take (j + 1))
          ⟨⟨42, "Al", ⟨"42", some "old"⟩, ⟨"Al", none⟩⟩, []⟩).world =
          fld.Input.SetText (fld.Value.To (fld.Value.Clear w)).1.1
            (fld.Input.ClearError (fld.Value.To (fld.Value.Clear w)).2)) :=
  ⟨rfl, rfl,
    Clear_resets_every_field (Form.mk personFields ["42", "Al"])
      ⟨⟨42, "Al", ⟨"42", some "old"⟩, ⟨"Al", none⟩⟩, []⟩ rfl⟩

end Clear

section Submit

variable {σ : Type}

theorem Form.submitLoop_spec (fs : List (Field σ)) :
    ∀ (k : Nat) (ok : Bool) (s : Sys σ),
      ∃ outs : List (String × GoError), outs.length = fs.length ∧
        (Form.submitLoop fs k ok s).2.log = s.log ++ traceOf validateSeg k outs ∧
        (Form.submitLoop fs k ok s).1 = (ok && outs.all (fun o => o.2.isNone)) := by
  induction fs with
  | nil => intro k ok s; exact ⟨[], rfl, by simp [Form.submitLoop, traceOf], by simp [Form.submitLoop]⟩
  | cons field rest ih =>
    intro k ok s
    obtain ⟨outs, hlen, hlog, hok⟩ :=
      ih (k + 1) (if !(field.Validate k s).1 then false else ok) (field.Validate k s).2
    refine ⟨((field.Input.Text s.world).1,
      (field.Value.From (field.Input.Text s.world).1 (field.Input.Text s.world).2).1) :: outs,
      by simp [hlen], ?_, ?_⟩
    · simp only [Form.submitLoop, hlog, Field.Validate_log, traceOf, List.append_assoc]
    · rw [show Form.submitLoop (field :: rest) k ok s = Form.submitLoop rest (k + 1)
          (if !(field.Validate k s).1 then false else ok) (field.Validate k s).2 from rfl,
        hok, Field.Validate_ok]
      cases (field.Value.From (field.Input.Text s.world).1 (field.Input.Text s.world).2).1 <;>
        cases ok <;> simp

/-- C1: `Form.Submit` runs one field validation on every field, in field
order, whatever the earlier results and the cache: the system it leaves is
the one reached by validating the fields one after the other; at each field
the text read is what `Input.Text` returns in the world reached before that
field and the result is what `Value.From` returns for that text, followed by
`SetError` or `ClearError`; and `Submit` returns true exactly when every one
of these `From` calls returned no error. -/
theorem Submit_validates_every_field (f : Form σ) (s : Sys σ) :
    ∃ outs : List (String × GoError), outs.length = f.Fields.length ∧
      (f.Submit s).2.2 = inOrder validateSpec 0 f.Fields s ∧
      (∀ (j : Nat) (fld : Field σ) (w : σ), f.Fields[j]? = some fld →
        w = (inOrder validateSpec 0 (f.Fields.take j) s).world →
        outs[j]? = some ((fld.Input.Text w).1,
          (fld.Value.From (fld.Input.Text w).1 (fld.Input.Text w).2).1) ∧
        (inOrder validateSpec 0 (f.Fields.take (j + 1)) s).world = validateWorld fld w ∧
        callsOf j ((f.Submit s).2.2.log.drop s.log.length) =
          [Event.text j (fld.Input.Text w).1,
           Event.from j (fld.Input.Text w).1
             (fld.Value.From (fld.Input.Text w).1 (fld.Input.Text w).2).1,
           outcome j (fld.Value.From (fld.Input.Text w).1 (fld.Input.Text w).2).1]) ∧
      (f.Submit s).2.2.log = s.log ++ traceOf validateSeg 0 outs ∧
      ((f.Submit s).1 = true ↔ ∀ o ∈ outs, o.2 = none) ∧
      ((f.Submit s).1 = true ↔
        ∀ (j : Nat) (fld : Field σ) (w : σ), f.Fields[j]? = some fld →
          w = (inOrder validateSpec 0 (f.Fields.take j) s).world →
          (fld.Value.From (fld.Input.Text w).1 (fld.Input.Text w).2).1 = none) ∧
      (∀ c : List String,
        ((Form.mk f.Fields c).Submit s).1 = (f.Submit s).1 ∧
        ((Form.mk f.Fields c).Submit s).2.2 = (f.Submit s).2.2) := by
  have hrun := Form.Submit_run f s
  have htie : ∀ (j : Nat) (fld : Field σ) (w : σ), f.Fields[j]? = some fld →
      w = (inOrder validateSpec 0 (f.Fields.take j) s).world →
      (outsAlong validateSpec (fun _ => validateOut) 0 f.Fields s)[j]? =
        some ((fld.Input.Text w).1,
          (fld.Value.From (fld.Input.Text w).1 (fld.Input.Text w).2).1) := by
    intro j fld w hj hw
    rw [outsAlong_getElem validateSpec (fun _ => validateOut) f.Fields 0 s j fld hj, hw]
    rfl
  have hflag : (f.Submit s).1 = true ↔
      ∀ o ∈ outsAlong validateSpec (fun _ => validateOut) 0 f.Fields s, o.2 = none := by
    rw [hrun]
    simp only [List.all_eq_true, Option.isNone_iff_eq_none]
  refine ⟨outsAlong validateSpec (fun _ => validateOut) 0 f.Fields s,
    outsAlong_length _ _ _ _ _, by rw [hrun], ?_, ?_, hflag, ?_, fun c => ⟨rfl, rfl⟩⟩
  · intro j fld w hj hw
    refine ⟨htie j fld w hj hw, ?_, ?_⟩
    · rw [inOrder_take_succ validateSpec f.Fields 0 s j fld hj, hw]
      rfl
    · rw [hrun]
      have := inOrder_callsOf validateSpec (fun _ => validateOut) validateSeg
        (fun _ _ _ => rfl) validateSeg_idx f.Fields s j fld hj
      rw [this, hw]
      rfl
  · rw [hrun]
    exact inOrder_log validateSpec (fun _ => validateOut) validateSeg (fun _ _ _ => rfl)
      f.Fields 0 s
  · rw [hflag]
    constructor
    · intro hall j fld w hj hw
      exact hall _ (List.getElem?_mem (htie j fld w hj hw))
    · intro hall o ho
      obtain ⟨j, hj⟩ := List.mem_iff_getElem?.mp ho
      have hjl : j < f.Fields.length := by
        rw [← outsAlong_length validateSpec (fun _ => validateOut) f.Fields 0 s]
        exact lt_length_of_getElem? _ _ _ hj
      obtain ⟨fld, hfld⟩ := getElem?_of_lt_length f.Fields j hjl
      have := htie j fld _ hfld rfl
      rw [hj] at this
      simp only [Option.some.injEq] at this
      rw [this]
      exact hall j fld _ hfld rfl

/-- C9: `Form.Submit` hands back the form exactly as it received it: the
same `Fields` and the same cache, whatever the validation results. -/
theorem Submit_leaves_form_unchanged (f : Form σ) (s : Sys σ) :
    (f.Submit s).2.1 = f ∧ (f.Submit s).2.1.Fields = f.Fields ∧
      (f.Submit s).2.1.cache = f.cache ∧
      (f.Submit s).2.1.cache.length = f.cache.length ∧
      (f.Submit s).2.1.Fields.length = f.Fields.length :=
  ⟨rfl, rfl, rfl, rfl, rfl⟩

end Submit

section Validate

variable {σ : Type}

/-- C2: with a cache as long as `Fields`, `Form.Validate` completes and
leaves the system reached by handling the fields in order.  At each field it
reads the text `Input.Text` returns in the world reached before that field;
where this text differs from the cache entry it stores the text in the entry
and runs one field validation (a second `Text` read, `Value.From` on it, and
`SetError` or `ClearError`); where it equals the entry the read is the only
call made through the field, the world after the read is the world after the
field, and the entry stays as it was. -/
theorem Validate_revalidates_changed_fields (f : Form σ) (s : Sys σ)
    (h : f.cache.length = f.Fields.length) :
    ∃ (outs : List (String × Option (String × GoError))) (f1 : Form σ) (s1 : Sys σ),
      f.Validate s = some (f1, s1) ∧ f1.Fields = f.Fields ∧
      outs.length = f.Fields.length ∧ f1.cache.length = f.cache.length ∧
      s1 = inOrder (realtimeSpec f.cache) 0 f.Fields s ∧
      s1.log = s.log ++ traceOf realtimeSeg 0 outs ∧
      (∀ (j : Nat) (fld : Field σ) (c : String) (w : σ), f.Fields[j]? = some fld →
        f.cache[j]? = some c →
        w = (inOrder (realtimeSpec f.cache) 0 (f.Fields.take j) s).world →
        (c ≠ (fld.Input.Text w).1 →
          outs[j]? = some ((fld.Input.Text w).1,
            some (validateOut fld (fld.Input.Text w).2)) ∧
          f1.cache[j]? = some (fld.Input.Text w).1 ∧
          callsOf j (s1.log.drop s.log.length) =
            [Event.text j (fld.Input.Text w).1,
             Event.text j (fld.Input.Text (fld.Input.Text w).2).1,
             Event.from j (fld.Input.Text (fld.Input.Text w).2).1
               (fld.Value.From (fld.Input.Text (fld.Input.Text w).2).1
                 (fld.Input.Text (fld.Input.Text w).2).2).1,
             outcome j (fld.Value.From (fld.Input.Text (fld.Input.Text w).2).1
                 (fld.Input.Text (fld.Input.Text w).2).2).1] ∧
          (inOrder (realtimeSpec f.cache) 0 (f.Fields.take (j + 1)) s).world =
            validateWorld fld (fld.Input.Text w).2) ∧
        (c = (fld.Input.Text w).1 →
          outs[j]? = some ((fld.Input.Text w).1, none) ∧
          f1.cache[j]? = some c ∧
          callsOf j (s1.log.drop s.log.length) = [Event.text j (fld.Input.Text w).1] ∧
          (inOrder (realtimeSpec f.cache) 0 (f.Fields.take (j + 1)) s).world =
            (fld.Input.Text w).2)) := by
  obtain ⟨cache1, hrun, hcl, hent⟩ := Form.Validate_run f s h
  refine ⟨outsAlong (realtimeSpec f.cache) (realtimeOut f.cache) 0 f.Fields s,
    ⟨f.Fields, cache1⟩, _, hrun, rfl, outsAlong_length _ _ _ _ _, hcl, rfl,
    inOrder_log (realtimeSpec f.cache) (realtimeOut f.cache) realtimeSeg (fun _ _ _ => rfl)
      f.Fields 0 s, ?_⟩
  intro j fld c w hj hc hw
  have hout := outsAlong_getElem (realtimeSpec f.cache) (realtimeOut f.cache) f.Fields 0 s j
    fld hj
  have hcalls := inOrder_callsOf (realtimeSpec f.cache) (realtimeOut f.cache) realtimeSeg
    (fun _ _ _ => rfl) realtimeSeg_idx f.Fields s j fld hj
  have hnext := inOrder_take_succ (realtimeSpec f.cache) f.Fields 0 s j fld hj
  have hcache := hent j fld hj
  simp only [Nat.zero_add] at hout hnext
  rw [← hw] at hout hcalls hcache
  constructor
  · intro hne
    have hne2 : ¬ f.cache[j]? = some (fld.Input.Text w).1 := by
      rw [hc]; simpa using hne
    refine ⟨?_, hcache, ?_, ?_⟩
    · rw [hout]; simp [realtimeOut, hne2]
    · rw [hcalls]; simp [realtimeOut, realtimeSeg, validateSeg, validateOut, hne2]
    · rw [hnext]
      show realtimeWorld f.cache j fld _ = _
      rw [← hw]; simp [realtimeWorld, hne2]
  · intro he
    have he2 : f.cache[j]? = some (fld.Input.Text w).1 := by rw [hc, he]
    refine ⟨?_, by rw [hcache, he], ?_, ?_⟩
    · rw [hout]; simp [realtimeOut, he2]
    · rw [hcalls]; simp [realtimeOut, realtimeSeg, he2]
    · rw [hnext]
      show realtimeWorld f.cache j fld _ = _
      rw [← hw]; simp [realtimeWorld, he2]

/-- The realtime-validation theorem at `sampleForm` in the fresh mock world:
the first field is unchanged, the second is seen as changed, and the cache
ends as `["stable", ""]`. -/
theorem Validate_revalidates_changed_fields_witness :
    sampleForm.cache.length = sampleForm.Fields.length ∧
    (sampleForm.Validate Sys.fresh).map (fun r => (r.1.cache, r.2.world, r.2.log))
      = some (["stable", ""], ⟨⟨0, 2, 0, 1⟩, ⟨0, 1, 0⟩⟩,
          [Event.text 0 "stable", Event.text 1 "", Event.text 1 "",
           Event.from 1 "" none, Event.clearError 1]) ∧
    ∃ (outs : List (String × Option (String × GoError))) (f1 : Form MockWorld)
      (s1 : Sys MockWorld),
      sampleForm.Validate Sys.fresh = some (f1, s1) ∧ f1.Fields = sampleForm.Fields ∧
      outs.length = sampleForm.Fields.length ∧ f1.cache.length = sampleForm.cache.length ∧
      s1 = inOrder (realtimeSpec sampleForm.cache) 0 sampleForm.Fields Sys.fresh ∧
      s1.log = Sys.fresh.log ++ traceOf realtimeSeg 0 outs ∧
      (∀ (j : Nat) (fld : Field MockWorld) (c : String) (w : MockWorld),
        sampleForm.Fields[j]? = some fld → sampleForm.cache[j]? = some c →
        w = (inOrder (realtimeSpec sampleForm.cache) 0 (sampleForm.Fields.take j)
          Sys.fresh).world →
        (c ≠ (fld.Input.Text w).1 →
          outs[j]? = some ((fld.Input.Text w).1,
            some (validateOut fld (fld.Input.Text w).2)) ∧
          f1.cache[j]? = some (fld.Input.Text w).1 ∧
          callsOf j (s1.log.drop Sys.fresh.log.length) =
            [Event.text j (fld.Input.Text w).1,
             Event.text j (fld.Input.Text (fld.Input.Text w).2).1,
             Event.from j (fld.Input.Text (fld.Input.Text w).2).1
               (fld.Value.From (fld.Input.Text (fld.Input.Text w).2).1
                 (fld.Input.Text (fld.Input.Text w).2).2).1,
             outcome j (fld.Value.From (fld.Input.Text (fld.Input.Text w).2).1
                 (fld.Input.Text (fld.Input.Text w).2).2).1] ∧
          (inOrder (realtimeSpec sampleForm.cache) 0 (sampleForm.Fields.take (j + 1))
            Sys.fresh).world = validateWorld fld (fld.Input.Text w).2) ∧
        (c = (fld.Input.Text w).1 →
          outs[j]? = some ((fld.Input.Text w).1, none) ∧
          f1.cache[j]? = some c ∧
          callsOf j (s1.log.drop Sys.fresh.log.length) = [Event.text j (fld.Input.Text w).1] ∧
          (inOrder (realtimeSpec sampleForm.cache) 0 (sampleForm.Fields.take (j + 1))
            Sys.fresh).world = (fld.Input.Text w).2)) :=
  ⟨rfl, rfl, Validate_revalidates_changed_fields sampleForm Sys.fresh rfl⟩

end Validate

section Load

variable {σ : Type}

theorem Form.loadLoop_spec (fs : List (Field σ)) :
    ∀ (k : Nat) (cache : List String) (s : Sys σ), k + fs.length ≤ cache.length →
      ∃ (outs : List LoadStep) (cache1 : List String) (s1 : Sys σ),
        Form.loadLoop fs k cache s = some (cache1, s1) ∧
        outs.length = fs.length ∧
        s1.log = s.log ++ traceOf loadSeg k outs ∧
        cache1.length = cache.length ∧
        (∀ j, j < k → cache1[j]? = cache[j]?) ∧
        (∀ j t p, outs[j]? = some (LoadStep.loaded t p) → cache1[k + j]? = some p) ∧
        (∀ j t m, outs[j]? = some (LoadStep.toFailed t m) → cache1[k + j]? = cache[k + j]?) := by
  induction fs with
  | nil =>
    intro k cache s _
    exact ⟨[], cache, s, rfl, rfl, by simp [traceOf], rfl, fun _ _ => rfl, by simp, by simp⟩
  | cons field rest ih =>
    intro k cache s hk
    simp only [List.length_cons] at hk
    have hkl : k < cache.length := by omega
    cases hto : (field.Value.To s.world).1.2 with
    | some msg =>
      obtain ⟨outs, cache1, s1, hrun, hlen, hlog, hcl, hlow, hok, hbad⟩ :=
        ih (k + 1) cache (callSetError k field.Input msg (callTo k field.Value s).2) (by omega)
      refine ⟨LoadStep.toFailed (field.Value.To s.world).1.1 msg :: outs, cache1, s1, ?_,
        by simp [hlen], ?_, hcl, fun j hj => hlow j (by omega), ?_, ?_⟩
      · simp only [Form.loadLoop, callTo, hto]
        simpa [callTo] using hrun
      · have e : (field.Value.To s.world).1 = ((field.Value.To s.world).1.1, some msg) :=
          Prod.ext rfl hto
        simp only [hlog, callSetError, callTo, traceOf, loadSeg, List.append_assoc]
        rw [← e]
        simp
      · intro j t p ho
        cases j with
        | zero => simp at ho
        | succ j =>
          simp only [List.getElem?_cons_succ] at ho
          rw [show k + (j + 1) = k + 1 + j by omega]
          exact hok j t p ho
      · intro j t m ho
        cases j with
        | zero => exact hlow k (by omega)
        | succ j =>
          simp only [List.getElem?_cons_succ] at ho
          rw [show k + (j + 1) = k + 1 + j by omega]
          exact hbad j t m ho
    | none =>
      obtain ⟨outs, cache1, s1, hrun, hlen, hlog, hcl, hlow, hok, hbad⟩ :=
        ih (k + 1) (cache.set k (callText k field.Input (callTo k field.Value s).2).1)
          (callSetText k field.Input (callTo k field.Value s).1.1
            (callClearError k field.Input (callText k field.Input (callTo k field.Value s).2).2))
          (by simp; omega)
      refine ⟨LoadStep.loaded (field.Value.To s.world).1.1
          (field.Input.Text (field.Value.To s.world).2).1 :: outs, cache1, s1, ?_,
        by simp [hlen], ?_, by simpa using hcl, ?_, ?_, ?_⟩
      · simp only [Form.loadLoop, callTo, hto, hkl, if_true]
        simpa [callTo] using hrun
      · have e : (field.Value.To s.world).1 = ((field.Value.To s.world).1.1, none) :=
          Prod.ext rfl hto
        simp only [hlog, callSetText, callClearError, callText, callTo, traceOf, loadSeg,
          List.append_assoc]
        rw [← e]
        simp
      · intro j hj
        rw [hlow j (by omega), List.getElem?_set_ne (by omega)]
      · intro j t p ho
        cases j with
        | zero =>
          simp only [List.getElem?_cons_zero, Option.some.injEq, LoadStep.loaded.injEq] at ho
          rw [Nat.add_zero, hlow k (by omega), ← ho.2]
          simp [callText, callTo, hkl]
        | succ j =>
          simp only [List.getElem?_cons_succ] at ho
          rw [show k + (j + 1) = k + 1 + j by omega]
          exact hok j t p ho
      · intro j t m ho
        cases j with
        | zero => simp at ho
        | succ j =>
          simp only [List.getElem?_cons_succ] at ho
          rw [show k + (j + 1) = k + 1 + j by omega, hbad j t m ho,
            List.getElem?_set_ne (by omega)]

theorem Form.Load_spec (f : Form σ) (fields : List (Field σ)) (s : Sys σ) (hne : fields ≠ []) :
    ∃ (outs : List LoadStep) (f1 : Form σ) (s1 : Sys σ),
      f.Load fields s = some (f1, s1) ∧ f1.Fields = fields ∧
      outs.length = fields.length ∧ f1.cache.length = fields.length ∧
      s1.log = s.log ++ traceOf loadSeg 0 outs ∧
      (∀ (j : Nat) t p, outs[j]? = some (LoadStep.loaded t p) → f1.cache[j]? = some p) ∧
      (∀ (j : Nat) t m, outs[j]? = some (LoadStep.toFailed t m) → f1.cache[j]? = some "") := by
  have hpos : 0 < fields.length := List.length_pos.mpr hne
  obtain ⟨outs, cache1, s1, hrun, hlen, hlog, hcl, -, hok, hbad⟩ :=
    Form.loadLoop_spec fields 0 (List.replicate fields.length "") s (by simp)
  refine ⟨outs, ⟨fields, cache1⟩, s1, ?_, rfl, hlen, by simpa using hcl, hlog, ?_, ?_⟩
  · simp [Form.Load, hpos, hrun]
  · intro j t p ho
    simpa using hok j t p ho
  · intro j t m ho
    have hj : j < fields.length := by
      rw [← hlen]
      rcases Nat.lt_or_ge j outs.length with h | h
      · exact h
      · simp [List.getElem?_eq_none h] at ho
    have := hbad j t m ho
    simp only [Nat.zero_add] at this
    rw [this]
    simp [List.getElem?_replicate, hj]

theorem loadSeg_to_failed (i j : Nat) (o : LoadStep) (t m : String)
    (h : Event.to j (t, some m) ∈ loadSeg i o) : i = j ∧ o = LoadStep.toFailed t m := by
  cases o with
  | toFailed t1 m1 =>
    simp [loadSeg] at h
    exact ⟨h.1.symm, by rw [h.2.1, h.2.2]⟩
  | loaded t1 p => simp [loadSeg] at h

/-- C3: `Form.Load` of a non-empty field sequence completes, leaves the
system reached by loading the fields in order, and never calls `Value.From`.
For every field whose `To`, called in the world `w` reached before that
field, returns text `t` without error: the calls made through the field are
exactly that `To`, one `Text` read (made right after `To`, so before the
update), `ClearError`, and last `SetText(t)`; the cache entry of the field is
the text that read returned; and the world after the field is the one
`SetText(t)` produced. -/
theorem Load_success_caches_previous_text (f : Form σ) (fields : List (Field σ)) (s : Sys σ)
    (hne : fields ≠ []) :
    ∃ (f1 : Form σ) (s1 : Sys σ),
      f.Load fields s = some (f1, s1) ∧ f1.Fields = fields ∧
      f1.cache.length = fields.length ∧
      s1 = inOrder loadSpec 0 fields s ∧
      (∀ e ∈ s1.log.drop s.log.length, ∀ i a r, e ≠ Event.from i a r) ∧
      (∀ (j : Nat) (fld : Field σ) (w : σ) (t : String), fields[j]? = some fld →
        w = (inOrder loadSpec 0 (fields.take j) s).world →
        (fld.Value.To w).1 = (t, none) →
        callsOf j (s1.log.drop s.log.length) =
          [Event.to j (t, none), Event.text j (fld.Input.Text (fld.Value.To w).2).1,
           Event.clearError j, Event.setText j t] ∧
        f1.cache[j]? = some (fld.Input.Text (fld.Value.To w).2).1 ∧
        (inOrder loadSpec 0 (fields.take (j + 1)) s).world =
          fld.Input.SetText t (fld.Input.ClearError (fld.Input.Text (fld.Value.To w).2).2)) := by
  obtain ⟨cache1, hrun, hcl, hent⟩ := Form.Load_run f fields s hne
  have hlog := inOrder_log loadSpec (fun _ => loadOut) loadSeg (fun _ _ _ => rfl) fields 0 s
  refine ⟨⟨fields, cache1⟩, _, hrun, rfl, hcl, rfl, ?_, ?_⟩
  · intro e he i a r heq
    rw [hlog, List.drop_left] at he
    obtain ⟨j, o, -, ho⟩ := traceOf_mem loadSeg _ 0 e he
    subst heq
    cases o <;> simp [loadSeg] at ho
  · intro j fld w t hj hw hto
    have hto2 : (fld.Value.To w).1.2 = none := by rw [hto]
    have hto1 : (fld.Value.To w).1.1 = t := by rw [hto]
    refine ⟨?_, (hent j fld w hj hw).1 hto2, ?_⟩
    · have := inOrder_callsOf loadSpec (fun _ => loadOut) loadSeg (fun _ _ _ => rfl)
        loadSeg_idx fields s j fld hj
      rw [this, ← hw]
      simp [loadOut, loadSeg, hto2, hto1]
    · rw [inOrder_take_succ loadSpec fields 0 s j fld hj]
      show loadWorld fld _ = _
      rw [← hw]
      simp [loadWorld, hto2, hto1]

/-- C4: `Form.Load` of a non-empty field sequence completes, and so does a
following `Form.Validate`; both leave the system reached by handling the
fields in order.  For every field whose `To`, called in the world `w` reached
before that field, returns an error with message `msg`: the calls `Load`
makes through the field are exactly that `To` and one `SetError(msg)` (no
`Text`, `SetText` or `ClearError`), its cache entry is left empty, and the
world after the field is the one `SetError` produced.  When the following
`Validate` then reads the empty text from that input, this read is its only
call through the field, so that `Load` and `Validate` together made one
`SetError` and one `Text` call, and the cache entry stays empty. -/
theorem Load_failure_sets_error_and_leaves_cache_empty (f : Form σ) (fields : List (Field σ))
    (s : Sys σ) (hne : fields ≠ []) :
    ∃ (f1 : Form σ) (s1 : Sys σ) (f2 : Form σ) (s2 : Sys σ),
      f.Load fields s = some (f1, s1) ∧ f1.Validate s1 = some (f2, s2) ∧
      s1 = inOrder loadSpec 0 fields s ∧
      s2 = inOrder (realtimeSpec f1.cache) 0 fields s1 ∧
      (∀ (j : Nat) (fld : Field σ) (w : σ) (t msg : String), fields[j]? = some fld →
        w = (inOrder loadSpec 0 (fields.take j) s).world →
        (fld.Value.To w).1 = (t, some msg) →
        callsOf j (s1.log.drop s.log.length) = [Event.to j (t, some msg), Event.setError j msg] ∧
        f1.cache[j]? = some "" ∧
        (inOrder loadSpec 0 (fields.take (j + 1)) s).world =
          fld.Input.SetError msg (fld.Value.To w).2 ∧
        (∀ wv : σ, wv = (inOrder (realtimeSpec f1.cache) 0 (fields.take j) s1).world →
          (fld.Input.Text wv).1 = "" →
          callsOf j (s2.log.drop s1.log.length) = [Event.text j ""] ∧
          callsOf j (s2.log.drop s.log.length) =
            [Event.to j (t, some msg), Event.setError j msg, Event.text j ""] ∧
          f2.cache[j]? = some "" ∧
          (inOrder (realtimeSpec f1.cache) 0 (fields.take (j + 1)) s1).world =
            (fld.Input.Text wv).2)) := by
  obtain ⟨cache1, hrun, hcl, hent⟩ := Form.Load_run f fields s hne
  obtain ⟨cache2, hrunV, -, hentV⟩ :=
    Form.Validate_run ⟨fields, cache1⟩ (inOrder loadSpec 0 fields s) hcl
  have hlog := inOrder_log loadSpec (fun _ => loadOut) loadSeg (fun _ _ _ => rfl) fields 0 s
  have hlogV := inOrder_log (realtimeSpec cache1) (realtimeOut cache1) realtimeSeg
    (fun _ _ _ => rfl) fields 0 (inOrder loadSpec 0 fields s)
  refine ⟨⟨fields, cache1⟩, _, ⟨fields, cache2⟩, _, hrun, hrunV, rfl, rfl, ?_⟩
  intro j fld w t msg hj hw hto
  have hto2 : (fld.Value.To w).1.2 = some msg := by rw [hto]
  have hto1 : (fld.Value.To w).1.1 = t := by rw [hto]
  have hL : callsOf j ((inOrder loadSpec 0 fields s).log.drop s.log.length) =
      [Event.to j (t, some msg), Event.setError j msg] := by
    have := inOrder_callsOf loadSpec (fun _ => loadOut) loadSeg (fun _ _ _ => rfl)
      loadSeg_idx fields s j fld hj
    rw [this, ← hw]
    simp [loadOut, loadSeg, hto2, hto1]
  have hcache : cache1[j]? = some "" := (hent j fld w hj hw).2 (by rw [hto2]; simp)
  refine ⟨hL, hcache, ?_, ?_⟩
  · rw [inOrder_take_succ loadSpec fields 0 s j fld hj]
    show loadWorld fld _ = _
    rw [← hw]
    simp [loadWorld, hto2]
  · intro wv hwv htext
    have he2 : cache1[j]? = some (fld.Input.Text wv).1 := by rw [hcache, htext]
    have hV : callsOf j ((inOrder (realtimeSpec cache1) 0 fields
        (inOrder loadSpec 0 fields s)).log.drop (inOrder loadSpec 0 fields s).log.length) =
        [Event.text j ""] := by
      have := inOrder_callsOf (realtimeSpec cache1) (realtimeOut cache1) realtimeSeg
        (fun _ _ _ => rfl) realtimeSeg_idx fields (inOrder loadSpec 0 fields s) j fld hj
      rw [this, ← hwv]
      simp [realtimeOut, realtimeSeg, he2, htext]
    refine ⟨hV, ?_, ?_, ?_⟩
    · have hsplit : (inOrder (realtimeSpec cache1) 0 fields
          (inOrder loadSpec 0 fields s)).log.drop s.log.length =
          (inOrder loadSpec 0 fields s).log.drop s.log.length ++
            (inOrder (realtimeSpec cache1) 0 fields
              (inOrder loadSpec 0 fields s)).log.drop (inOrder loadSpec 0 fields s).log.length := by
        rw [hlogV, hlog]
        simp [List.append_assoc]
      have hV2 := hV
      have hL2 := hL
      show callsOf j ((inOrder (realtimeSpec cache1) 0 fields
        (inOrder loadSpec 0 fields s)).log.drop s.log.length) = _
      rw [hsplit]
      simp only [callsOf, List.filter_append] at hL2 hV2 ⊢
      rw [hL2, hV2]
      rfl
    · show cache2[j]? = _
      rw [hentV j fld hj]
      show some (fld.Input.Text (inOrder (realtimeSpec cache1) 0 (fields.take j)
        (inOrder loadSpec 0 fields s)).world).1 = _
      rw [← hwv, htext]
    · rw [inOrder_take_succ (realtimeSpec cache1) fields 0 _ j fld hj, Nat.zero_add]
      show realtimeWorld cache1 j fld _ = _
      rw [← hwv]
      simp [realtimeWorld, he2]

/-- The success-path theorem of `Load` at the person form, with the stale
text "7" and an old error in the age input: the cache holds the texts read
before the update, `["7", ""]`, the age input shows "18" and has no error. -/
theorem Load_success_caches_previous_text_witness :
    personFields ≠ [] ∧
    (Form.Load ⟨[], []⟩ personFields ⟨⟨0, "", ⟨"7", some "old"⟩, ⟨"", none⟩⟩, []⟩).map
        (fun r => (r.1.cache, r.2.world, r.2.log))
      = some (["7", ""], ⟨0, "", ⟨"18", none⟩, ⟨"", none⟩⟩,
          [Event.to 0 ("18", none), Event.text 0 "7", Event.clearError 0, Event.setText 0 "18",
           Event.to 1 ("", none), Event.text 1 "", Event.clearError 1, Event.setText 1 ""]) ∧
    ∃ (f1 : Form PersonForm) (s1 : Sys PersonForm),
      Form.Load ⟨[], []⟩ personFields ⟨⟨0, "", ⟨"7", some "old"⟩, ⟨"", none⟩⟩, []⟩
        = some (f1, s1) ∧
      f1.Fields = personFields ∧
      f1.cache.length = personFields.length ∧
      s1 = inOrder loadSpec 0 personFields ⟨⟨0, "", ⟨"7", some "old"⟩, ⟨"", none⟩⟩, []⟩ ∧
      (∀ e ∈ s1.log.drop
          (Sys.mk (PersonForm.mk 0 "" ⟨"7", some "old"⟩ ⟨"", none⟩) []).log.length,
        ∀ i a r, e ≠ Event.from i a r) ∧
      (∀ (j : Nat) (fld : Field PersonForm) (w : PersonForm) (t : String),
        personFields[j]? = some fld →
        w = (inOrder loadSpec 0 (personFields.take j)
          ⟨⟨0, "", ⟨"7", some "old"⟩, ⟨"", none⟩⟩, []⟩).world →
        (fld.Value.To w).1 = (t, none) →
        callsOf j (s1.log.drop
            (Sys.mk (PersonForm.mk 0 "" ⟨"7", some "old"⟩ ⟨"", none⟩) []).log.length) =
          [Event.to j (t, none), Event.text j (fld.Input.Text (fld.Value.To w).2).1,
           Event.clearError j, Event.setText j t] ∧
        f1.cache[j]? = some (fld.Input.Text (fld.Value.To w).2).1 ∧
        (inOrder loadSpec 0 (personFields.take (j + 1))
          ⟨⟨0, "", ⟨"7", some "old"⟩, ⟨"", none⟩⟩, []⟩).world =
          fld.Input.SetText t (fld.Input.ClearError (fld.Input.Text (fld.Value.To w).2).2)) :=
  ⟨List.cons_ne_nil _ _, rfl,
    Load_success_caches_previous_text ⟨[], []⟩ personFields
      ⟨⟨0, "", ⟨"7", some "old"⟩, ⟨"", none⟩⟩, []⟩ (List.cons_ne_nil _ _)⟩

/-- The failure-path theorem of `Load` at the test scenario "set error when
validation fails": one failing field on an unloaded form; `Load` logs `To` and
`SetError`, and the mock input has counted one `SetError` and no other call. -/
theorem Load_failure_sets_error_and_leaves_cache_empty_witness :
    [failingField] ≠ [] ∧
    (Form.Load ⟨[], []⟩ [failingField] Sys.fresh).map
        (fun r => (r.1.cache, r.2.world.input, r.2.log))
      = some ([""], ⟨0, 0, 1, 0⟩,
          [Event.to 0 ("", some "failed"), Event.setError 0 "failed"]) ∧
    ∃ (f1 : Form MockWorld) (s1 : Sys MockWorld) (f2 : Form MockWorld) (s2 : Sys MockWorld),
      Form.Load ⟨[], []⟩ [failingField] Sys.fresh = some (f1, s1) ∧
      f1.Validate s1 = some (f2, s2) ∧
      s1 = inOrder loadSpec 0 [failingField] Sys.fresh ∧
      s2 = inOrder (realtimeSpec f1.cache) 0 [failingField] s1 ∧
      (∀ (j : Nat) (fld : Field MockWorld) (w : MockWorld) (t msg : String),
        [failingField][j]? = some fld →
        w = (inOrder loadSpec 0 ([failingField].take j) Sys.fresh).world →
        (fld.Value.To w).1 = (t, some msg) →
        callsOf j (s1.log.drop Sys.fresh.log.length) =
          [Event.to j (t, some msg), Event.setError j msg] ∧
        f1.cache[j]? = some "" ∧
        (inOrder loadSpec 0 ([failingField].take (j + 1)) Sys.fresh).world =
          fld.Input.SetError msg (fld.Value.To w).2 ∧
        (∀ wv : MockWorld,
          wv = (inOrder (realtimeSpec f1.cache) 0 ([failingField].take j) s1).world →
          (fld.Input.Text wv).1 = "" →
          callsOf j (s2.log.drop s1.log.length) = [Event.text j ""] ∧
          callsOf j (s2.log.drop Sys.fresh.log.length) =
            [Event.to j (t, some msg), Event.setError j msg, Event.text j ""] ∧
          f2.cache[j]? = some "" ∧
          (inOrder (realtimeSpec f1.cache) 0 ([failingField].take (j + 1)) s1).world =
            (fld.Input.Text wv).2)) :=
  ⟨List.cons_ne_nil _ _, rfl,
    Load_failure_sets_error_and_leaves_cache_empty ⟨[], []⟩ [failingField] Sys.fresh
      (List.cons_ne_nil _ _)⟩

/-- C5 (the code at a failing input): a form is loaded with one field whose
`To` fails, which leaves cache and `Fields` both of length 1; a second `Load`
with the empty sequence then returns normally with `Fields` still of length 1
and a cache of length 0. -/
theorem Load_empty_on_loaded_form_shrinks_cache :
    ∃ (f1 : Form MockWorld) (s1 : Sys MockWorld) (f2 : Form MockWorld) (s2 : Sys MockWorld),
      Form.Load ⟨[], []⟩ [failingField] Sys.fresh = some (f1, s1) ∧
      f1.Fields.length = 1 ∧ f1.cache.length = 1 ∧
      f1.Load [] s1 = some (f2, s2) ∧
      f2.Fields.length = 1 ∧ f2.cache.length = 0 :=
  ⟨_, _, _, _, rfl, rfl, rfl, rfl, rfl, rfl⟩

/-- C16 (the code at a failing input): in the person form the name was
validated as "Al" (the cache holds it) and the user erased it; `Form.Validate`
sees the empty text as a change, runs `Field.Validate` on the field and leaves
the empty input with the error "required". -/
theorem Validate_puts_empty_input_in_error :
    (Form.Validate ⟨personFields, ["18", "Al"]⟩ ⟨PersonForm.erased, []⟩).map
        (fun r => (r.2.world.NameInput, r.1.cache, r.2.log))
      = some (⟨"", some "required"⟩, ["18", ""],
          [Event.text 0 "18", Event.text 1 "", Event.text 1 "",
           Event.from 1 "" (some "required"), Event.setError 1 "required"]) := by
  rfl

/-- C18 (the code at a failing input): a form is loaded with one field whose
`To` succeeds; a second `Load` with the empty sequence keeps that field,
allocates a cache of length 0 and fails at the write `f.cache[0]`. -/
theorem Load_empty_on_loaded_form_writes_out_of_range :
    ∃ (f1 : Form MockWorld) (s1 : Sys MockWorld),
      Form.Load ⟨[], []⟩ [mockField] Sys.fresh = some (f1, s1) ∧
      f1.Fields.length = 1 ∧ f1.cache.length = 1 ∧
      (f1.Load [] s1).isNone = true :=
  ⟨_, _, rfl, rfl, rfl, rfl⟩

/-- C17 (counterexample): in the scenario "set error when validation fails"
(`FailingValue` with a `MockInput`), `Load` followed by `Validate` logs `To`,
one `SetError` and one `Text` read: no `From` call is made and `SetError` is
not invoked a second time. -/
theorem fail_path_makes_no_second_SetError :
    ∃ (f1 : Form MockWorld) (s1 : Sys MockWorld) (f2 : Form MockWorld) (s2 : Sys MockWorld),
      Form.Load ⟨[], []⟩ [failingField] Sys.fresh = some (f1, s1) ∧
      f1.Validate s1 = some (f2, s2) ∧
      s2.log = [Event.to 0 ("", some "failed"), Event.setError 0 "failed", Event.text 0 ""] ∧
      s2.world.input = ⟨0, 1, 1, 0⟩ ∧
      (∀ e ∈ s2.log, ∀ a r, e ≠ Event.from 0 a r) ∧
      s2.log.count (Event.setError 0 "failed") = 1 :=
  ⟨_, _, _, _, rfl, rfl, rfl, rfl,
    (by
      show ∀ e ∈ [Event.to 0 ("", some "failed"), Event.setError 0 "failed", Event.text 0 ""],
        ∀ a r, e ≠ Event.from 0 a r
      intro e he a r
      simp only [List.mem_cons, List.mem_singleton, List.not_mem_nil, or_false] at he
      rcases he with rfl | rfl | rfl <;> simp),
    (by
      show [Event.to 0 ("", some "failed"), Event.setError 0 "failed", Event.text 0 ""].count
        (Event.setError 0 "failed") = 1
      decide)⟩

/-- C17 (amended): for a single field whose `To` always fails and whose input
always reports the empty text, `Load` followed by `Validate` completes;
`Validate` reads the text once, finds it equal to the cache entry that `Load`
left empty, and so does not run `Field.Validate`: the calls are `To`, the
`SetError` made by `Load`, and one `Text` read, with no `From` and no second
`SetError`. -/
theorem fail_path_sets_error_once (f : Form σ) (field : Field σ) (s : Sys σ)
    (hTo : ∀ w, (field.Value.To w).1.2 ≠ none)
    (hText : ∀ w, (field.Input.Text w).1 = "") :
    ∃ (t msg : String) (f1 : Form σ) (s1 : Sys σ) (f2 : Form σ) (s2 : Sys σ),
      f.Load [field] s = some (f1, s1) ∧ f1.cache = [""] ∧
      f1.Validate s1 = some (f2, s2) ∧ f2.cache = [""] ∧
      s2.log = s.log ++ [Event.to 0 (t, some msg), Event.setError 0 msg, Event.text 0 ""] := by
  cases hto : (field.Value.To s.world).1.2 with
  | none => exact absurd hto (hTo s.world)
  | some msg =>
    have e : (field.Value.To s.world).1 = ((field.Value.To s.world).1.1, some msg) :=
      Prod.ext rfl hto
    refine ⟨(field.Value.To s.world).1.1, msg, ⟨[field], [""]⟩,
      callSetError 0 field.Input msg (callTo 0 field.Value s).2, ⟨[field], [""]⟩,
      (callText 0 field.Input (callSetError 0 field.Input msg (callTo 0 field.Value s).2)).2,
      ?_, rfl, ?_, rfl, ?_⟩
    · simp [Form.Load, Form.loadLoop, callTo, hto]
    · simp [Form.Validate, Form.validateLoop, callText, hText]
    · simp only [callText, callSetError, callTo, List.append_assoc, List.singleton_append,
        List.cons_append, List.nil_append, hText]
      rw [← e]

/-- The amended fail-path theorem at the test double `failingField`. -/
theorem fail_path_sets_error_once_witness :
    (∀ w, (failingField.Value.To w).1.2 ≠ none) ∧
    (∀ w, (failingField.Input.Text w).1 = "") ∧
    ∃ (t msg : String) (f1 : Form MockWorld) (s1 : Sys MockWorld) (f2 : Form MockWorld)
      (s2 : Sys MockWorld),
      Form.Load ⟨[], []⟩ [failingField] Sys.fresh = some (f1, s1) ∧ f1.cache = [""] ∧
      f1.Validate s1 = some (f2, s2) ∧ f2.cache = [""] ∧
      s2.log = Sys.fresh.log ++
        [Event.to 0 (t, some msg), Event.setError 0 msg, Event.text 0 ""] :=
  ⟨fun _ => by simp [failingField, FailingValue], fun _ => rfl,
    fail_path_sets_error_once ⟨[], []⟩ failingField Sys.fresh
      (fun _ => by simp [failingField, FailingValue]) (fun _ => rfl)⟩

end Load

section RequiredValue

variable {σ : Type}

theorem all_of_all_dropWhile (p : Char → Bool) (l : List Char) :
    (∀ x ∈ l.dropWhile p, p x = true) ↔ ∀ x ∈ l, p x = true := by
  induction l with
  | nil => simp
  | cons x xs ih =>
    by_cases hp : p x = true
    · simp [List.dropWhile_cons, hp, ih]
    · simp [List.dropWhile_cons, hp]

theorem TrimSpace_empty_iff (s : String) :
    (TrimSpace s).utf8ByteSize = 0 ↔ ∀ c ∈ s.data, IsSpace c = true := by
  simp only [TrimSpace, String.utf8ByteSize_mk, String.utf8Len_eq_zero, List.reverse_eq_nil_iff,
    List.dropWhile_eq_nil_iff, List.mem_reverse]
  exact all_of_all_dropWhile IsSpace s.data

/-- C10: `Required{v}.From(s)` returns the error "required" and leaves the
world untouched (the wrapped `From` is not run) when every character of `s`
is white space, which includes the empty `s`; otherwise it is `v.From(s)` on
the untrimmed `s`, with the same result and the same effect.  `To` and
`Clear` of `Required{v}` are those of `v`. -/
theorem Required_rejects_blank_else_delegates (v : Value σ) (s : String) (w : σ) :
    ((∀ c ∈ s.data, IsSpace c = true) → (Required v).From s w = (some "required", w)) ∧
    ((∃ c ∈ s.data, IsSpace c = false) → (Required v).From s w = v.From s w) ∧
    (Required v).To = v.To ∧ (Required v).Clear = v.Clear := by
  refine ⟨fun h => ?_, fun h => ?_, rfl, rfl⟩
  · have := (TrimSpace_empty_iff s).mpr h
    simp [Required, this]
  · have hn : ¬ (TrimSpace s).utf8ByteSize = 0 := by
      rw [TrimSpace_empty_iff]
      obtain ⟨c, hc, hs⟩ := h
      intro hall
      rw [hall c hc] at hs
      exact Bool.noConfusion hs
    simp [Required, hn]

end RequiredValue

section Faithful

variable {σ : Type}

end Faithful

section Strconv

theorem decimalFold_digits (ds : List Char) :
    ∀ acc, (∀ c ∈ ds, (digitValue c).isSome = true) →
      decimalFold acc ds = some (ds.foldl (fun a c => a * 10 + (digitValue c).getD 0) acc) := by
  induction ds with
  | nil => intro acc _; rfl
  | cons c cs ih =>
    intro acc h
    obtain ⟨d, hd⟩ := Option.isSome_iff_exists.mp (h c (by simp))
    simp only [decimalFold, hd, List.foldl_cons, Option.getD_some]
    exact ih _ (fun x hx => h x (by simp [hx]))

theorem parseDecimal_digits (ds : List Char) (hne : ds ≠ [])
    (h : ∀ c ∈ ds, (digitValue c).isSome = true) :
    parseDecimal ds = some (decimalValue ds) := by
  cases ds with
  | nil => exact absurd rfl hne
  | cons c cs => simpa [parseDecimal, decimalValue] using decimalFold_digits (c :: cs) 0 h

theorem digitValue_digitChar (k : ℕ) (hk : k < 10) : digitValue (Nat.digitChar k) = some k := by
  interval_cases k <;> rfl

theorem decimalFold_toDigitsCore (fuel : ℕ) :
    ∀ (n : ℕ) (ds : List Char), n < fuel →
      ∃ k, ∀ acc, decimalFold acc (Nat.toDigitsCore 10 fuel n ds)
        = decimalFold (acc * 10 ^ k + n) ds := by
  induction fuel with
  | zero => intro n ds h; omega
  | succ fuel ih =>
    intro n ds hn
    by_cases h0 : n / 10 = 0
    · refine ⟨1, fun acc => ?_⟩
      have hlt : n < 10 := by omega
      simp only [Nat.toDigitsCore, h0, if_true, decimalFold,
        digitValue_digitChar (n % 10) (Nat.mod_lt _ (by omega)), pow_one]
      rw [Nat.mod_eq_of_lt hlt]
    · obtain ⟨k, hk⟩ := ih (n / 10) (Nat.digitChar (n % 10) :: ds) (by omega)
      refine ⟨k + 1, fun acc => ?_⟩
      simp only [Nat.toDigitsCore, h0, if_false, hk, decimalFold,
        digitValue_digitChar (n % 10) (Nat.mod_lt _ (by omega))]
      congr 1
      have := Nat.div_add_mod n 10
      rw [pow_succ]
      nlinarith [this]

theorem toDigitsCore_ne_nil (fuel : ℕ) :
    ∀ (n : ℕ) (ds : List Char), ds ≠ [] → Nat.toDigitsCore 10 fuel n ds ≠ [] := by
  induction fuel with
  | zero => intro n ds h; simpa [Nat.toDigitsCore] using h
  | succ fuel ih =>
    intro n ds _
    simp only [Nat.toDigitsCore]
    split
    · simp
    · exact ih _ _ (by simp)

theorem toDigits_ne_nil (n : ℕ) : Nat.toDigits 10 n ≠ [] := by
  simp only [Nat.toDigits, Nat.toDigitsCore]
  split
  · simp
  · exact toDigitsCore_ne_nil _ _ _ (by simp)

theorem parseDecimal_toDigits (n : ℕ) : parseDecimal (Nat.toDigits 10 n) = some n := by
  obtain ⟨k, hk⟩ := decimalFold_toDigitsCore (n + 1) n [] (by omega)
  have hne := toDigits_ne_nil n
  have h := hk 0
  simp only [decimalFold, Nat.zero_mul, Nat.zero_add] at h
  cases hd : Nat.toDigits 10 n with
  | nil => exact absurd hd hne
  | cons c cs =>
    rw [Nat.toDigits] at hd
    rw [hd] at h
    simpa [parseDecimal] using h

theorem parseDecimal_head (c : Char) (cs : List Char) (n : ℕ)
    (h : parseDecimal (c :: cs) = some n) : c ≠ '-' ∧ c ≠ '+' := by
  simp only [parseDecimal, List.isEmpty_cons, Bool.false_eq_true, if_false, decimalFold] at h
  constructor <;> (rintro rfl; simp [digitValue] at h)

theorem Atoi_neg_digits (ds : List Char) (n : ℕ) (h : parseDecimal ds = some n) :
    Atoi (String.mk ('-' :: ds)) = if n ≤ 2 ^ 63 then some (-(n : ℤ)) else none := by
  simp [Atoi, h]

theorem Atoi_digits (ds : List Char) (n : ℕ) (h : parseDecimal ds = some n) :
    Atoi (String.mk ds) = if n < 2 ^ 63 then some (n : ℤ) else none := by
  cases ds with
  | nil => simp [parseDecimal] at h
  | cons c cs =>
    obtain ⟨h1, h2⟩ := parseDecimal_head c cs n h
    simp [Atoi, h1, h2, h]

theorem Atoi_range (s : String) (m : ℤ) (h : Atoi s = some m) : -2 ^ 63 ≤ m ∧ m < 2 ^ 63 := by
  unfold Atoi at h
  split at h
  · simp at h
  · split_ifs at h <;>
    · simp only [Option.bind_eq_some] at h
      obtain ⟨n, -, hn⟩ := h
      split_ifs at hn with hr
      simp only [Option.some.injEq] at hn
      subst hn
      constructor <;> push_cast <;> omega

theorem Atoi_Itoa (n : ℤ) (h1 : -2 ^ 63 ≤ n) (h2 : n < 2 ^ 63) : Atoi (Itoa n) = some n := by
  unfold Itoa
  split_ifs with hneg
  · have hd : ("-" ++ Nat.repr n.natAbs) = String.mk ('-' :: Nat.toDigits 10 n.natAbs) := rfl
    rw [hd, Atoi_neg_digits _ _ (parseDecimal_toDigits _)]
    have : n.natAbs ≤ 2 ^ 63 := by omega
    rw [if_pos this]
    congr 1
    omega
  · have hd : Nat.repr n.natAbs = String.mk (Nat.toDigits 10 n.natAbs) := rfl
    rw [hd, Atoi_digits _ _ (parseDecimal_toDigits _)]
    have : n.natAbs < 2 ^ 63 := by omega
    rw [if_pos this]
    congr 1
    omega

end Strconv

section Parse

variable {σ : Type}

theorem parse.Uint_ok (s : String) (n : ℕ) (h : parse.Uint s = (n, none)) :
    Atoi s = some (n : ℤ) ∧ 1 ≤ n ∧ (n : ℤ) < 2 ^ 63 := by
  unfold parse.Uint at h
  cases ha : Atoi s with
  | none => simp [ha] at h
  | some m =>
    obtain ⟨h1, h2⟩ := Atoi_range s m ha
    simp only [ha] at h
    split_ifs at h with hm
    · simp at h
    · simp only [Prod.mk.injEq, and_true] at h
      have hmod : m % 2 ^ 64 = m := Int.emod_eq_of_lt (by omega) (by omega)
      rw [hmod] at h
      have hn : (n : ℤ) = m := by rw [← h]; exact Int.toNat_of_nonneg (by omega)
      exact ⟨by rw [hn], by omega, by omega⟩

theorem parse.Uint_err (s : String) (e : String) (h : (parse.Uint s).2 = some e) :
    parse.Uint s = (0, some e) := by
  unfold parse.Uint at h ⊢
  cases ha : Atoi s with
  | none => simpa [ha] using h
  | some m =>
    simp only [ha] at h ⊢
    by_cases hm : m < 1
    · simpa [hm] using h
    · simp [hm] at h

theorem wrap64_of_range (x : ℤ) (h1 : -2 ^ 63 ≤ x) (h2 : x < 2 ^ 63) : wrap64 x = x := by
  unfold wrap64
  rw [Int.emod_eq_of_lt (by omega) (by omega)]
  omega

/-- C11 (counterexample): the text "-9223372036854775809" is a minus sign
followed by decimal digits, yet `parse.Uint` reports "must be a valid number"
for it, not "must be an amount greater than 0". -/
theorem Uint_out_of_range_negative_is_invalid_number :
    parse.Uint "-9223372036854775809" = (0, some "must be a valid number") ∧
    (parse.Uint "-9223372036854775809").2 ≠ some "must be an amount greater than 0" := by
  have h : parse.Uint "-9223372036854775809" = (0, some "must be a valid number") := by
    have hd : parseDecimal "9223372036854775809".data = some 9223372036854775809 := by
      rw [parseDecimal_digits _ (by decide) (by decide)]
      rfl
    have ha := Atoi_neg_digits _ _ hd
    have hs : String.mk ((Char.ofNat 45) :: "9223372036854775809".data)
        = "-9223372036854775809" := by decide
    rw [hs] at ha
    simp [parse.Uint, ha]
  refine ⟨h, ?_⟩
  rw [h]
  decide

/-- C11 (amended): `parse.Uint` returns 0 and the error "must be an amount
greater than 0" for the text "0" and for every text that is a minus sign
followed by one or more decimal digits denoting a number of at most 2^63
(what `strconv.Atoi` can parse into an `int`); when the digits denote a larger
number the error is "must be a valid number". -/
theorem Uint_rejects_zero_and_negatives (ds : List Char) (hne : ds ≠ [])
    (hd : ∀ c ∈ ds, (digitValue c).isSome = true) :
    parse.Uint "0" = (0, some "must be an amount greater than 0") ∧
    (decimalValue ds ≤ 2 ^ 63 →
      parse.Uint (String.mk ('-' :: ds)) = (0, some "must be an amount greater than 0")) ∧
    (2 ^ 63 < decimalValue ds →
      parse.Uint (String.mk ('-' :: ds)) = (0, some "must be a valid number")) := by
  have ha := Atoi_neg_digits ds _ (parseDecimal_digits ds hne hd)
  refine ⟨?_, fun h => ?_, fun h => ?_⟩
  · have h0 : Atoi "0" = some 0 := by
      have := Atoi_digits "0".data 0 (by rw [parseDecimal_digits _ (by decide) (by decide)]; rfl)
      simpa using this
    simp [parse.Uint, h0]
  · rw [if_pos h] at ha
    have hneg : -(decimalValue ds : ℤ) < 1 := by omega
    simp [parse.Uint, ha, hneg]
  · rw [if_neg (by omega)] at ha
    simp [parse.Uint, ha]

/-- The amended `parse.Uint` theorem at the text "-5". -/
theorem Uint_rejects_zero_and_negatives_witness :
    ['5'] ≠ [] ∧ (∀ c ∈ ['5'], (digitValue c).isSome = true) ∧
    parse.Uint "0" = (0, some "must be an amount greater than 0") ∧
    (decimalValue ['5'] ≤ 2 ^ 63 →
      parse.Uint (String.mk ('-' :: ['5'])) = (0, some "must be an amount greater than 0")) ∧
    (2 ^ 63 < decimalValue ['5'] →
      parse.Uint (String.mk ('-' :: ['5'])) = (0, some "must be a valid number")) :=
  ⟨by decide, by decide, Uint_rejects_zero_and_negatives ['5'] (by decide) (by decide)⟩

theorem parse.Uint_of_Atoi (s : String) (m : ℤ) (ha : Atoi s = some m) (hm : 1 ≤ m) :
    parse.Uint s = (m.toNat, none) := by
  obtain ⟨h1, h2⟩ := Atoi_range s m ha
  have hmod : m % 18446744073709551616 = m := Int.emod_eq_of_lt (by omega) (by omega)
  simp [parse.Uint, ha, show ¬ m < 1 by omega, hmod]

theorem parse.Day_of_Uint (s : String) (n : ℕ) (h : parse.Uint s = (n, none)) :
    parse.Day s = (wrap64 ((n : ℤ) * 86400000000000), none) := by
  obtain ⟨-, h1, h2⟩ := parse.Uint_ok s n h
  simp only [parse.Day, h, Hour]
  rw [wrap64_of_range (n : ℤ) (by omega) h2]
  congr 2
  ring

/-- C12 (counterexample): `parse.Uint` accepts "106752" with value 106752,
but `parse.Day` returns a negative duration for it, not 106752 times 24
hours. -/
theorem Day_overflows_at_106752 :
    parse.Uint "106752" = (106752, none) ∧
    parse.Day "106752" = (-9223371273709551616, none) ∧
    (parse.Day "106752").1 ≠ 106752 * (24 * Hour) := by
  have ha : Atoi "106752" = some 106752 := by
    have := Atoi_digits "106752".data 106752
      (by rw [parseDecimal_digits _ (by decide) (by decide)]; rfl)
    simpa using this
  have hu : parse.Uint "106752" = (106752, none) := by
    simpa using parse.Uint_of_Atoi _ _ ha (by norm_num)
  have hd : parse.Day "106752" = (-9223371273709551616, none) := by
    rw [parse.Day_of_Uint _ _ hu]
    norm_num [wrap64]
  refine ⟨hu, hd, ?_⟩
  rw [hd]
  norm_num [Hour]

/-- C12 (amended): for every text that `parse.Uint` accepts with value `n`
(then `n ≥ 1`), `parse.Day` returns no error and the duration `n` times 24
hours reduced to the `int64` range, which is exactly `n * 86400000000000`
nanoseconds whenever `n ≤ 106751`; "5" yields 120 hours.  For every text that
`Uint` rejects, `Day` returns the zero duration and the same error. -/
theorem Day_scales_within_int64 (s : String) :
    (∀ n : ℕ, parse.Uint s = (n, none) →
      1 ≤ n ∧ parse.Day s = (wrap64 ((n : ℤ) * 86400000000000), none) ∧
      (n ≤ 106751 → parse.Day s = ((n : ℤ) * 86400000000000, none))) ∧
    (∀ e : String, (parse.Uint s).2 = some e → parse.Day s = (0, some e)) ∧
    parse.Day "5" = (120 * Hour, none) := by
  refine ⟨fun n h => ⟨(parse.Uint_ok s n h).2.1, parse.Day_of_Uint s n h, fun hn => ?_⟩,
    fun e h => ?_, ?_⟩
  · rw [parse.Day_of_Uint s n h, wrap64_of_range _ (by omega) (by omega)]
  · simp [parse.Day, parse.Uint_err s e h]
  · have ha : Atoi "5" = some 5 := by
      have := Atoi_digits "5".data 5 (by rw [parseDecimal_digits _ (by decide) (by decide)]; rfl)
      simpa using this
    have hu : parse.Uint "5" = (5, none) := by
      simpa using parse.Uint_of_Atoi _ _ ha (by norm_num)
    rw [parse.Day_of_Uint _ _ hu]
    norm_num [wrap64, Hour]

theorem splitChars_length (sep : Char) (l : List Char) :
    (splitChars sep l).length = l.count sep + 1 := by
  induction l with
  | nil => rfl
  | cons c cs ih =>
    by_cases h : c = sep
    · subst h
      simp [splitChars, ih]
    · have hne : (c == sep) = false := by simpa using h
      simp only [splitChars, h, if_false, List.count_cons, hne, Bool.false_eq_true, Nat.add_zero]
      cases hs : splitChars sep cs with
      | nil => rw [hs] at ih; simp at ih
      | cons p ps => rw [hs] at ih; simpa using ih

theorem Split_length (s : String) (sep : Char) :
    (Split s sep).length = s.data.count sep + 1 := by
  simp [Split, splitChars_length]

theorem prefixed_ne_format (pre : String) (x : String)
    (h : pre.data.take 2 ≠ "must be dd/mm/yyyy".data.take 2) (hl : 2 ≤ pre.data.length) :
    pre ++ x ≠ "must be dd/mm/yyyy" := by
  intro he
  have hd := congrArg (fun t => t.data.take 2) he
  simp only [String.data_append] at hd
  rw [List.take_append_of_le_length hl] at hd
  exact h hd

/-- C13: `parse.Date` returns the zero time and the error "must be
dd/mm/yyyy" for every string that does not hold exactly two "/" characters,
and for a string with exactly two of them it never returns that error
message. -/
theorem Date_format_error_iff_not_two_slashes (s : String) :
    (s.data.count '/' ≠ 2 → parse.Date s = (Time.zero, some "must be dd/mm/yyyy")) ∧
    (s.data.count '/' = 2 → (parse.Date s).2 ≠ some "must be dd/mm/yyyy") := by
  have hlen := Split_length s '/'
  constructor
  · intro hc
    unfold parse.Date
    split
    · rename_i p0 p1 p2 hsp
      rw [hsp] at hlen
      simp at hlen
      omega
    · rfl
  · intro hc
    rw [hc] at hlen
    obtain ⟨p0, p1, p2, hsp⟩ : ∃ p0 p1 p2, Split s '/' = [p0, p1, p2] := by
      match hs : Split s '/', hlen with
      | [a, b, c], _ => exact ⟨a, b, c, rfl⟩
    simp only [parse.Date, hsp]
    cases Atoi p2 with
    | none =>
      simp only [Option.some.injEq, ne_eq]
      exact prefixed_ne_format _ _ (by decide) (by decide)
    | some year =>
      cases Atoi p1 with
      | none =>
        simp only [Option.some.injEq, ne_eq]
        exact prefixed_ne_format _ _ (by decide) (by decide)
      | some month =>
        cases Atoi p0 with
        | none =>
          simp only [Option.some.injEq, ne_eq]
          exact prefixed_ne_format _ _ (by decide) (by decide)
        | some day => simp

/-- C21 (the code at failing inputs): for "31/x/2020" the month part "x" is
not an integer and `parse.Date` answers "month not a number: 2020"; for
"x/12/2020" the day part "x" is not an integer and it answers "day not a
number: 2020".  In general, whenever the year part parses, the month and day
error messages end with the year part `p2`, not with the offending part. -/
theorem Date_month_and_day_errors_name_the_year :
    parse.Date "31/x/2020" = (Time.zero, some "month not a number: 2020") ∧
    (parse.Date "31/x/2020").2 ≠ some "month not a number: x" ∧
    parse.Date "x/12/2020" = (Time.zero, some "day not a number: 2020") ∧
    (parse.Date "x/12/2020").2 ≠ some "day not a number: x" ∧
    (∀ (s p0 p1 p2 : String) (year : ℤ), Split s '/' = [p0, p1, p2] → Atoi p2 = some year →
      (Atoi p1 = none → parse.Date s = (Time.zero, some ("month not a number: " ++ p2))) ∧
      (∀ month : ℤ, Atoi p1 = some month → Atoi p0 = none →
        parse.Date s = (Time.zero, some ("day not a number: " ++ p2)))) := by
  have hy : Atoi "2020" = some 2020 := by
    have := Atoi_digits "2020".data 2020
      (by rw [parseDecimal_digits _ (by decide) (by decide)]; rfl)
    simpa using this
  have hm : Atoi "12" = some 12 := by
    have := Atoi_digits "12".data 12
      (by rw [parseDecimal_digits _ (by decide) (by decide)]; rfl)
    simpa using this
  have hx : Atoi "x" = none := by decide
  have h1 : parse.Date "31/x/2020" = (Time.zero, some "month not a number: 2020") := by
    have hsp : Split "31/x/2020" '/' = ["31", "x", "2020"] := by decide
    simp only [parse.Date, hsp, hy, hx]
    decide
  have h2 : parse.Date "x/12/2020" = (Time.zero, some "day not a number: 2020") := by
    have hsp : Split "x/12/2020" '/' = ["x", "12", "2020"] := by decide
    simp only [parse.Date, hsp, hy, hm, hx]
    decide
  refine ⟨h1, ?_, h2, ?_, ?_⟩
  · rw [h1]; decide
  · rw [h2]; decide
  · intro s p0 p1 p2 year hsp hyear
    refine ⟨fun h => ?_, fun month hmonth h => ?_⟩
    · simp only [parse.Date, hsp, hyear, h]
    · simp only [parse.Date, hsp, hyear, hmonth, h]

end Parse

section TypedValues

variable {σ : Type}

theorem parse.Int_Itoa (n : ℤ) (h1 : -2 ^ 63 ≤ n) (h2 : n < 2 ^ 63) :
    parse.Int (Itoa n) = (n, none) := by
  simp [parse.Int, Atoi_Itoa n h1 h2]

/-- C14: with an `int` `n` in the storage of a `value.Int` whose `Default` is
`d`, `To` succeeds and leaves the world as it is, and `From` on the text it
returned reports no error; afterwards the storage holds `n` when `n` is not 0
and `d` when `n` is 0. -/
theorem Int_round_trip (v : value.Int σ) (w : σ)
    (hn1 : -2 ^ 63 ≤ v.Value.get w) (hn2 : v.Value.get w < 2 ^ 63)
    (hd1 : -2 ^ 63 ≤ v.Default) (hd2 : v.Default < 2 ^ 63) :
    (v.To w).1.2 = none ∧ (v.To w).2 = w ∧
    (v.From (v.To w).1.1 (v.To w).2).1 = none ∧
    (v.Value.get w ≠ 0 →
      v.Value.get (v.From (v.To w).1.1 (v.To w).2).2 = v.Value.get w) ∧
    (v.Value.get w = 0 →
      v.Value.get (v.From (v.To w).1.1 (v.To w).2).2 = v.Default) := by
  refine ⟨rfl, rfl, ?_, fun h => ?_, fun h => ?_⟩
  · by_cases h : v.Value.get w = 0
    · simp [value.Int.From, value.Int.To, h, parse.Int_Itoa _ hd1 hd2]
    · simp [value.Int.From, value.Int.To, h, parse.Int_Itoa _ hn1 hn2]
  · simp [value.Int.From, value.Int.To, h, parse.Int_Itoa _ hn1 hn2, v.Value.get_set]
  · simp [value.Int.From, value.Int.To, h, parse.Int_Itoa _ hd1 hd2, v.Value.get_set]

/-- The round-trip theorem of `value.Int` at storage 0 with default 18 (the
Age field of the example application). -/
theorem Int_round_trip_witness :
    (-2 ^ 63 ≤ (value.Int.mk (Ptr.self ℤ) 18).Value.get 0) ∧
    ((value.Int.mk (Ptr.self ℤ) 18).Value.get 0 < 2 ^ 63) ∧
    (-2 ^ 63 ≤ (value.Int.mk (Ptr.self ℤ) 18).Default) ∧
    ((value.Int.mk (Ptr.self ℤ) 18).Default < 2 ^ 63) ∧
    ((value.Int.mk (Ptr.self ℤ) 18).To 0).1.2 = none ∧
    ((value.Int.mk (Ptr.self ℤ) 18).To 0).2 = 0 ∧
    ((value.Int.mk (Ptr.self ℤ) 18).From ((value.Int.mk (Ptr.self ℤ) 18).To 0).1.1
      ((value.Int.mk (Ptr.self ℤ) 18).To 0).2).1 = none ∧
    ((value.Int.mk (Ptr.self ℤ) 18).Value.get 0 ≠ 0 →
      (value.Int.mk (Ptr.self ℤ) 18).Value.get
        ((value.Int.mk (Ptr.self ℤ) 18).From ((value.Int.mk (Ptr.self ℤ) 18).To 0).1.1
          ((value.Int.mk (Ptr.self ℤ) 18).To 0).2).2
        = (value.Int.mk (Ptr.self ℤ) 18).Value.get 0) ∧
    ((value.Int.mk (Ptr.self ℤ) 18).Value.get 0 = 0 →
      (value.Int.mk (Ptr.self ℤ) 18).Value.get
        ((value.Int.mk (Ptr.self ℤ) 18).From ((value.Int.mk (Ptr.self ℤ) 18).To 0).1.1
          ((value.Int.mk (Ptr.self ℤ) 18).To 0).2).2
        = (value.Int.mk (Ptr.self ℤ) 18).Default) :=
  ⟨by decide, by decide, by decide, by decide,
    Int_round_trip (value.Int.mk (Ptr.self ℤ) 18) 0 (by decide) (by decide) (by decide)
      (by decide)⟩

/-- C20: whenever `From` of a `value.Int` or of a `value.Days` returns an
error, it has stored 0 (the zero integer, the zero duration), whatever the
storage held before; so a `Field.Validate` that fails on such a value calls
`SetError` in a world whose storage slot has already been overwritten with
0. -/
theorem From_failure_zeroes_storage (vi : value.Int σ) (vd : value.Days σ) (text : String)
    (w : σ) (inp : Input σ) (i : Nat) (s : Sys σ) :
    ((vi.From text w).1 ≠ none →
      (vi.From text w).2 = vi.Value.set 0 w ∧ vi.Value.get (vi.From text w).2 = 0) ∧
    ((vd.From text w).1 ≠ none →
      (vd.From text w).2 = vd.Value.set 0 w ∧ vd.Value.get (vd.From text w).2 = 0) ∧
    ((Field.Validate i ⟨vi.toValue, inp⟩ s).1 = false →
      ∃ msg, (Field.Validate i ⟨vi.toValue, inp⟩ s).2.world
        = inp.SetError msg (vi.Value.set 0 (inp.Text s.world).2)) ∧
    ((Field.Validate i ⟨vd.toValue, inp⟩ s).1 = false →
      ∃ msg, (Field.Validate i ⟨vd.toValue, inp⟩ s).2.world
        = inp.SetError msg (vd.Value.set 0 (inp.Text s.world).2)) := by
  have hI : ∀ t, (parse.Int t).2 ≠ none → (parse.Int t).1 = 0 := by
    intro t h
    cases ha : Atoi t <;> simp [parse.Int, ha] at h ⊢
  have hD : ∀ t, (parse.Day t).2 ≠ none → (parse.Day t).1 = 0 := by
    intro t h
    rcases hu : parse.Uint t with ⟨n, _ | e⟩ <;> simp [parse.Day, hu] at h ⊢
  refine ⟨fun h => ?_, fun h => ?_, fun h => ?_, fun h => ?_⟩
  · have := hI text h
    simp [value.Int.From, this, vi.Value.get_set]
  · have := hD text h
    simp [value.Days.From, this, vd.Value.get_set]
  · cases he : (parse.Int (inp.Text s.world).1).2 with
    | none =>
      simp [Field.Validate, callText, callFrom, value.Int.toValue, value.Int.From, he] at h
    | some msg =>
      have := hI (inp.Text s.world).1 (by simp [he])
      exact ⟨msg, by
        simp [Field.Validate, callText, callFrom, callSetError, value.Int.toValue,
          value.Int.From, he, this]⟩
  · cases he : (parse.Day (inp.Text s.world).1).2 with
    | none =>
      simp [Field.Validate, callText, callFrom, value.Days.toValue, value.Days.From, he] at h
    | some msg =>
      have := hD (inp.Text s.world).1 (by simp [he])
      exact ⟨msg, by
        simp [Field.Validate, callText, callFrom, callSetError, value.Days.toValue,
          value.Days.From, he, this]⟩

end TypedValues

end GioPlanet
